import Mathlib

/-!
# A verification development for the mtsync reconciliation engine

This file gives a shallow embedding, in Lean 4, of the core of the `mtsync`
synchronizer (files `mtsync/helpers.py`, `mtsync/imagined.py`,
`mtsync/synchronizer.py`) and proves properties of it.

Modelling conventions:

* A Python `Dict[str, str]` (an *item*) is modelled as an association list
  `List (String × String)`.  Python dictionaries cannot carry duplicate keys,
  so theorems that depend on dictionary semantics carry `NodupKeys`
  hypotheses; lookups follow the first occurrence of a key, matching any
  list that actually represents a dictionary.
* Fallible Python code (`raise`, `KeyError`, `IndexError`, `ValueError`)
  is modelled with `Except String`; the message is a description of the
  Python exception raised at the same program point.
* The memoised score table `scores[c][d]` of `_analyze_list_add_remove` is
  a pure memoisation of `_score_items` (frozendicts hash and compare by
  value, and `_score_items` only depends on the value), so the embedding
  calls `score_items` directly where the source reads the table.
* The `while` loop of `_analyze_list_add_remove` is embedded with explicit
  fuel.  The loop body always removes one element from each pending list
  (the chosen pair consists of members of the two lists, and `list.remove`
  on a member succeeds), so fuel `current.length + desired.length` is never
  exhausted; the fuel branch is distinguishable from the source's own
  `raise Exception()` branch by its error message.
* `mtsync.constants` is not part of the sources; `non_movable_namespaces`
  is therefore kept abstract as an explicit parameter `nm` of the reorder
  phase, and theorems quantify over it.
-/

/-- An item: a Python `Dict[str, str]` as an (insertion-ordered) association
list. -/
abbrev Item := List (String × String)

/-- Python `d[k]`/`d.get(k)`: value of the first entry with key `k`. -/
def getv (a : Item) (k : String) : Option String :=
  (a.find? (fun kv => kv.1 == k)).map (fun kv => kv.2)

/-- Python `k in d`. -/
def hasKey (a : Item) (k : String) : Bool :=
  (getv a k).isSome

/-- `a` has no duplicate keys, i.e. it actually denotes a Python dict. -/
def NodupKeys (a : Item) : Prop :=
  (a.map Prod.fst).Nodup

instance (a : Item) : Decidable (NodupKeys a) :=
  inferInstanceAs (Decidable (a.map Prod.fst).Nodup)

/-- Python `d[k] = v` / `d | {k: v}`: overwrite the entry with key `k` in
place, or append a new entry at the end (insertion order semantics). -/
def dictInsert (a : Item) (k v : String) : Item :=
  if hasKey a k then a.map (fun kv => if kv.1 == k then (k, v) else kv)
  else a ++ [(k, v)]

/-- Python `dict.__eq__` (also `frozendict.__eq__`): equality as maps,
insensitive to insertion order. -/
def dict_eq (a b : Item) : Bool :=
  a.all (fun kv => getv b kv.1 == some kv.2) &&
    b.all (fun kv => getv a kv.1 == some kv.2)

/-- Items equal as maps at every key (`dict_eq` as a `Prop`). -/
def MapEq (a b : Item) : Prop :=
  ∀ k, getv a k = getv b k

/-- Items equal as maps at every key other than `".id"`. -/
def CoreEq (a b : Item) : Prop :=
  ∀ k, k ≠ ".id" → getv a k = getv b k

/-- The non-`.id` entries of an item. -/
def coreFilter (a : Item) : Item :=
  a.filter (fun kv => kv.1 != ".id")

/-- Insert an entry into a key-sorted association list. -/
def insKey (p : String × String) : Item → Item
  | [] => [p]
  | q :: r => if p.1 ≤ q.1 then p :: q :: r else q :: insKey p r

/-- Sort an association list by key (insertion sort). -/
def sortKeys : Item → Item
  | [] => []
  | p :: r => insKey p (sortKeys r)

/-- Canonical form of an item's non-`.id` part: entries sorted by key.
Two nodup-key items are `CoreEq` iff their canonical forms are equal. -/
def canon (a : Item) : Item :=
  sortKeys (coreFilter a)

/-! ## Identifier codec (`mtsync/helpers.py`) -/

/-- `Union[int, str]`, the argument type of `mt_str` and `mt_int`. -/
inductive MtV where
  | i (n : Int)
  | s (v : String)
deriving DecidableEq

/-- Lowercase hex digit, as produced by Python `hex`. -/
def hexDigitChar (n : Nat) : Char :=
  match n with
  | 0 => '0' | 1 => '1' | 2 => '2' | 3 => '3' | 4 => '4'
  | 5 => '5' | 6 => '6' | 7 => '7' | 8 => '8' | 9 => '9'
  | 10 => 'a' | 11 => 'b' | 12 => 'c' | 13 => 'd' | 14 => 'e' | 15 => 'f'
  | _ => '*'

/-- Value of one hex digit (`int(_, 16)` accepts both cases), written on
the character codes: `0`-`9` are codes 48-57, `a`-`f` codes 97-102,
`A`-`F` codes 65-70. -/
def hexValOf (c : Char) : Option Nat :=
  if 48 ≤ c.toNat ∧ c.toNat ≤ 57 then some (c.toNat - 48)
  else if 97 ≤ c.toNat ∧ c.toNat ≤ 102 then some (c.toNat - 87)
  else if 65 ≤ c.toNat ∧ c.toNat ≤ 70 then some (c.toNat - 55)
  else none

/-- Fuel-indexed base-16 digit expansion (structural recursion on the
fuel, so that the kernel can evaluate it; fuel `n + 1` always suffices). -/
def natHexAux : Nat → Nat → List Char
  | 0, n => [hexDigitChar n]
  | fuel + 1, n =>
    if n < 16 then [hexDigitChar n]
    else natHexAux fuel (n / 16) ++ [hexDigitChar (n % 16)]

/-- Digits of `n` in base 16, most significant first: Python `hex(n)[2:]`
for `n ≥ 0`. -/
def natHexDigits (n : Nat) : List Char :=
  natHexAux (n + 1) n

/-- Python `hex(n)[2:]` for `n ≥ 0`, as a string. -/
def natHexStr (n : Nat) : String :=
  ⟨natHexDigits n⟩

/-- `helpers.mt_str`: a string is returned unchanged; an int becomes
`hex(i)[2:]`.  (For a negative int, `hex(i)` is `-0x…`, so `[2:]` leaves
`x…`; that branch is reproduced faithfully but never reached by
well-formed states.) -/
def mt_str : MtV → String
  | .s v => v
  | .i n => if n < 0 then "x" ++ natHexStr (-n).toNat else natHexStr n.toNat

/-- Value of a nonempty string of hex digits; `none` models the
`ValueError` that `int(_, 16)` raises on other inputs.  (`int(_, 16)` also
accepts signs, whitespace, underscores and a `0x` prefix; no id handled by
this development takes those shapes.) -/
def hexListVal (cs : List Char) : Option Nat :=
  match cs with
  | [] => none
  | _ => cs.foldlM (fun acc c => (hexValOf c).map (fun d => 16 * acc + d)) 0

/-- `helpers.mt_int`: an int is returned unchanged; a string is parsed as
hex, with a leading `*` stripped.  `none` models the exception on
unparsable input (including the `IndexError` of `i[0]` on `""`). -/
def mt_int : MtV → Option Int
  | .i n => some n
  | .s v =>
    match v.data with
    | [] => none
    | c :: rest =>
      if c = '*' then (hexListVal rest).map Int.ofNat
      else (hexListVal (c :: rest)).map Int.ofNat

/-- Canonical id string of a nonnegative number: `mt_str` of a nat. -/
def mtStrN (n : Nat) : String :=
  natHexStr n

/-! ## The imagined list (`mtsync/imagined.py`)

`Imagined` wraps a mutable `state : List[Dict[str, str]]`; the embedding
passes the state explicitly.  `item[".id"]` raises `KeyError` when absent,
hence the `Except`. -/

/-- Python `item[".id"]`. -/
def idOf (it : Item) : Except String String :=
  match getv it ".id" with
  | some v => .ok v
  | none => .error "KeyError: .id"

/-- The fold of `Imagined._max_id` over the state. -/
def Imagined.max_id_go : List Item → Int → Except String Int
  | [], acc => .ok acc
  | it :: rest, acc =>
    match idOf it with
    | .error e => .error e
    | .ok v =>
      match mt_int (.s v) with
      | some n => Imagined.max_id_go rest (if acc < n then n else acc)
      | none => .error "ValueError: invalid literal for int"

/-- `Imagined._max_id`: maximum numeric id over the state, starting from 1
(note: 1 also for an empty state, not 0). -/
def Imagined.max_id (state : List Item) : Except String Int :=
  Imagined.max_id_go state 1

/-- `Imagined.update`: replace the first item whose `.id` equals
`mt_str id` by `new_state | {".id": old_id}`; silently do nothing when no
item matches. -/
def Imagined.update : List Item → String → Item → Except String (List Item)
  | [], _, _ => .ok []
  | it :: rest, id, new =>
    match idOf it with
    | .error e => .error e
    | .ok v =>
      if v = mt_str (.s id) then
        .ok (dictInsert new ".id" v :: rest)
      else
        match Imagined.update rest id new with
        | .error e => .error e
        | .ok rest' => .ok (it :: rest')

/-- `Imagined.append`: append a copy of `item` with
`.id = mt_str(max_id + 1)`. -/
def Imagined.append (state : List Item) (item : Item) :
    Except String (List Item) :=
  match Imagined.max_id state with
  | .error e => .error e
  | .ok m => .ok (state ++ [dictInsert item ".id" (mt_str (.i (m + 1)))])

/-- The bound test `bottom is None or item_id >= mt_int(bottom)`. -/
def boundLo (n : Int) : Option MtV → Except String Bool
  | none => .ok true
  | some b =>
    match mt_int b with
    | some bn => .ok (decide (bn ≤ n))
    | none => .error "ValueError: invalid literal for int"

/-- The bound test `top is None or item_id < mt_int(top)`. -/
def boundHi (n : Int) : Option MtV → Except String Bool
  | none => .ok true
  | some t =>
    match mt_int t with
    | some tn => .ok (decide (n < tn))
    | none => .error "ValueError: invalid literal for int"

/-- The loop body of `Imagined._move_all_between` on one item: add
`change` to its numeric id when that id lies in the (optional) half-open
range `[bottom, top)` (the `top` bound is only evaluated when the `bottom`
test passes, as in the source's `and`). -/
def mab_item (it : Item) (bottom top : Option MtV) (change : Int) :
    Except String Item :=
  match idOf it with
  | .error e => .error e
  | .ok v =>
    match mt_int (.s v) with
    | none => .error "ValueError: invalid literal for int"
    | some n =>
      match boundLo n bottom with
      | .error e => .error e
      | .ok lo =>
        if lo then
          match boundHi n top with
          | .error e => .error e
          | .ok hi =>
            if hi then .ok (dictInsert it ".id" (mt_str (.i (n + change))))
            else .ok it
        else .ok it

/-- `Imagined._move_all_between`: apply `mab_item` to every item of the
state, left to right, failing fast. -/
def Imagined.move_all_between : List Item → Option MtV → Option MtV →
    Int → Except String (List Item)
  | [], _, _, _ => .ok []
  | it :: rest, bottom, top, change =>
    match mab_item it bottom top change with
    | .error e => .error e
    | .ok it' =>
      match Imagined.move_all_between rest bottom top change with
      | .error e => .error e
      | .ok rest' => .ok (it' :: rest')

/-- The scan of `Imagined.delete`: index of the first item whose `.id`
equals `target`. -/
def Imagined.find_id_idx : List Item → String → Nat →
    Except String (Option Nat)
  | [], _, _ => .ok none
  | it :: rest, target, k =>
    match idOf it with
    | .error e => .error e
    | .ok v =>
      if v = target then .ok (some k)
      else Imagined.find_id_idx rest target (k + 1)

/-- `Imagined.delete`: remove the first item whose `.id` equals
`mt_str id` (position `i`), then decrement every id `≥ i + 1`.  No item
matching is a silent no-op. -/
def Imagined.delete (state : List Item) (id : MtV) :
    Except String (List Item) :=
  match Imagined.find_id_idx state (mt_str id) 0 with
  | .error e => .error e
  | .ok none => .ok state
  | .ok (some i) =>
    Imagined.move_all_between (state.eraseIdx i) (some (.i ((i : Int) + 1)))
      none (-1)

/-- The scan of `Imagined.move`: positions of the last items whose `.id`
equals `mt_str number` resp. `mt_str destination` (the source loop has no
`break`, so a later match overwrites an earlier one). -/
def Imagined.scan_ids : List Item → String → String → Nat →
    Option Nat × Option Nat → Except String (Option Nat × Option Nat)
  | [], _, _, _, acc => .ok acc
  | it :: rest, sn, dn, k, acc =>
    match idOf it with
    | .error e => .error e
    | .ok v =>
      Imagined.scan_ids rest sn dn (k + 1)
        (if v = sn then some k else acc.1, if v = dn then some k else acc.2)

/-- Python `list.insert` (clamping past the end, like Python). -/
def listInsertAt : Nat → Item → List Item → List Item
  | 0, a, l => a :: l
  | _ + 1, a, [] => [a]
  | n + 1, a, x :: l => x :: listInsertAt n a l

/-- `Imagined.move`: locate source and destination by id (raising when
either is absent), shift ids in `[destination, number)` up by one, insert
the source item at the destination position, delete its old occurrence
(which `# assumes items will be moving down`), and give it the destination
id. -/
def Imagined.move (state : List Item) (number destination : MtV) :
    Except String (List Item) :=
  match Imagined.scan_ids state (mt_str number) (mt_str destination)
      0 (none, none) with
  | .error e => .error e
  | .ok (some si, some di) =>
    match Imagined.move_all_between state (some destination) (some number) 1 with
    | .error e => .error e
    | .ok s1 =>
      match s1.get? si with
      | none => .error "IndexError"
      | some src =>
        match ((listInsertAt di src s1).eraseIdx (si + 1)).get? di with
        | none => .error "IndexError"
        | some dst =>
          .ok (((listInsertAt di src s1).eraseIdx (si + 1)).set di
            (dictInsert dst ".id" (mt_str destination)))
  | .ok _ => .error "Unable to find either source id or destination id"

/-! ## The synchronizer (`mtsync/synchronizer.py`) -/

/-- `action.ActionKind`. -/
inductive ActionKind where
  | PATCH | PUT | DELETE | POST
deriving DecidableEq

/-- `action.Action` (named `MtAction` here: `Action` is taken by Mathlib); `set_dict`/`current_dict` default to `{}` when the
source passes `None`. -/
structure MtAction where
  kind : ActionKind
  path : String
  set_dict : Item
  current_dict : Item
deriving DecidableEq

/-- `Synchronizer._score_items`: number of non-`.id` keys of the smaller
item (by entry count) present in the other with an equal value. -/
def score_items (a b : Item) : Nat :=
  let p := if a.length > b.length then (b, a) else (a, b)
  (p.1.filter (fun kv => kv.1 != ".id" && (getv p.2 kv.1 == some kv.2))).length

/-- `Synchronizer._test_equality`: equality after dropping `.id` from both
sides. -/
def test_equality (a b : Item) : Bool :=
  let a' := a.filter (fun kv => kv.1 != ".id")
  let b' := b.filter (fun kv => kv.1 != ".id")
  a'.length == b'.length && score_items a' b' == a'.length

/-- `itertools.product(current_items, desired_items)` in iteration order. -/
def pairsOf : List Item → List Item → List (Item × Item)
  | [], _ => []
  | c :: cs, des => des.map (fun d => (c, d)) ++ pairsOf cs des

/-- One step of the scan for the maximal-score pair: a pair replaces the
best seen so far only on a strictly greater score (first encountered
wins), starting from `max_score = 0`. -/
def argmax_step (best : Nat × Option (Item × Item)) (cd : Item × Item) :
    Nat × Option (Item × Item) :=
  if score_items cd.1 cd.2 > best.1 then (score_items cd.1 cd.2, some cd)
  else best

/-- The maximal-score pair scan of `_analyze_list_add_remove`. -/
def argmax_pair (cur des : List Item) : Option (Item × Item) :=
  ((pairsOf cur des).foldl argmax_step (0, none)).2

/-- The PATCH condition on one desired entry `(k, v)`:
`(k not in c and v != "") or (k in c and c[k] != v)`. -/
def patch_needed (c : Item) (kv : String × String) : Bool :=
  match getv c kv.1 with
  | none => kv.2 != ""
  | some w => w != kv.2

/-- Python `list.remove`: drop the first element equal (as a dict) to `x`. -/
def remove_item (l : List Item) (x : Item) : List Item :=
  l.eraseP (fun e => dict_eq e x)

/-- The per-pair body of the pairing loop: emit one PATCH at
`path/<c[".id"]>` with `set_dict = d` iff some entry of `d` satisfies
`patch_needed`, and in that case also update the imagined list. -/
def pair_patch (path : String) (c d : Item) (im : List Item) :
    Except String (List MtAction × List Item) :=
  match d.find? (fun kv => patch_needed c kv) with
  | none => .ok ([], im)
  | some _ =>
    match idOf c with
    | .error e => .error e
    | .ok cid =>
      match Imagined.update im cid d with
      | .error e => .error e
      | .ok im' =>
        .ok ([{ kind := .PATCH, path := path ++ "/" ++ cid, set_dict := d,
                current_dict := c }], im')

/-- The greedy pairing `while` loop of `_analyze_list_add_remove`
(fuel-indexed; see the module comment). -/
def pairing_loop (path : String) : Nat → List Item → List Item →
    List Item → List MtAction →
    Except String (List MtAction × List Item × List Item × List Item)
  | fuel, cur, des, im, acts =>
    if 0 < cur.length ∧ 0 < des.length then
      match fuel with
      | 0 => .error "fuel exhausted"
      | fuel' + 1 =>
        match argmax_pair cur des with
        | none => .error "Exception: null pair despite non-empty queues"
        | some (c, d) =>
          match pair_patch path c d im with
          | .error e => .error e
          | .ok r =>
            pairing_loop path fuel' (remove_item cur c) (remove_item des d)
              r.2 (acts ++ r.1)
    else .ok (acts, cur, des, im)

/-- The PUT loop over the desired items left unpaired. -/
def puts_fold (path : String) : List Item → List MtAction × List Item →
    Except String (List MtAction × List Item)
  | [], acc => .ok acc
  | d :: rest, acc =>
    match Imagined.append acc.2 d with
    | .error e => .error e
    | .ok im' =>
      puts_fold path rest
        (acc.1 ++ [{ kind := .PUT, path := path, set_dict := d,
                     current_dict := [] }], im')

/-- The DELETE loop over the current items left unpaired. -/
def dels_fold (path : String) : List Item → List MtAction × List Item →
    Except String (List MtAction × List Item)
  | [], acc => .ok acc
  | c :: rest, acc =>
    match idOf c with
    | .error e => .error e
    | .ok cid =>
      match Imagined.delete acc.2 (.s cid) with
      | .error e => .error e
      | .ok im' =>
        dels_fold path rest
          (acc.1 ++ [{ kind := .DELETE, path := path ++ "/" ++ cid,
                       set_dict := [], current_dict := c }], im')

/-- `Synchronizer._analyze_list_add_remove` (phase 1), on given current
items and a seeded imagined state; returns the actions and the imagined
state after them. -/
def analyze_list_add_remove (path : String) (cur des im : List Item) :
    Except String (List MtAction × List Item) :=
  match pairing_loop path (cur.length + des.length) cur des im [] with
  | .error e => .error e
  | .ok r =>
    match puts_fold path r.2.2.1 (r.1, r.2.2.2) with
    | .error e => .error e
    | .ok r' => dels_fold path r.2.1 r'

/-- The body of `Synchronizer._analyze_list_reorder` at desired index `i`
onwards. -/
def reorder_go (path : String) : Nat → List Item → List Item →
    List MtAction → Except String (List MtAction × List Item)
  | _, [], im, acts => .ok (acts, im)
  | i, d :: rest, im, acts =>
    match im.get? i with
    | none => .error "IndexError"
    | some imi =>
      if test_equality d imi then reorder_go path (i + 1) rest im acts
      else
        match (im.drop (i + 1)).find? (fun it => test_equality d it) with
        | none => reorder_go path (i + 1) rest im acts
        | some found =>
          match idOf found with
          | .error e => .error e
          | .ok cid =>
            match idOf imi with
            | .error e => .error e
            | .ok did =>
              match Imagined.move im (.s cid) (.s did) with
              | .error e => .error e
              | .ok im' =>
                reorder_go path (i + 1) rest im'
                  (acts ++ [{ kind := .POST, path := path ++ "/move",
                              set_dict := [("numbers", cid),
                                           ("destination", did)],
                              current_dict := [] }])

/-- `Synchronizer._analyze_list_reorder` (phase 2); `nm` stands for
`constants.non_movable_namespaces`, whose defining module is not among
the sources, so it stays an explicit parameter. -/
def analyze_list_reorder (nm : List String) (path : String)
    (im des : List Item) : Except String (List MtAction × List Item) :=
  if path ∈ nm then .ok ([], im)
  else reorder_go path 0 des im []

/-- `Synchronizer._analyze_list` minus the HTTP fetch: phase 1 on the
fetched `cur` (which also seeds the imagined list) followed by phase 2,
concatenating the emitted actions. -/
def analyze_list_actions (nm : List String) (path : String)
    (cur des : List Item) : Except String (List MtAction) :=
  match analyze_list_add_remove path cur des cur with
  | .error e => .error e
  | .ok r1 =>
    match analyze_list_reorder nm path r1.2 des with
    | .error e => .error e
    | .ok r2 => .ok (r1.1 ++ r2.1)

/-- The loop of `Synchronizer._analyze_dict` over the pending desired
entries: `current_state[k]` raises `KeyError` on an absent key; the first
differing value returns the single POST carrying the whole desired dict. -/
def analyze_dict_go (path : String) (current desired : Item) :
    Item → Except String (List MtAction)
  | [] => .ok []
  | kv :: rest =>
    match getv current kv.1 with
    | none => .error ("KeyError: " ++ kv.1)
    | some w =>
      if w ≠ kv.2 then
        .ok [{ kind := .POST, path := path ++ "/set", set_dict := desired,
               current_dict := current }]
      else analyze_dict_go path current desired rest

/-- `Synchronizer._analyze_dict` minus the HTTP fetch. -/
def analyze_dict (path : String) (current desired : Item) :
    Except String (List MtAction) :=
  analyze_dict_go path current desired desired

/-- Python `str.endswith`, on the character lists of the strings
(`String.endsWith` itself does not reduce in the kernel). -/
def str_ends_with (s suffixStr : String) : Bool :=
  suffixStr.data.isSuffixOf s.data

/-- The response check of `Synchronizer._apply` on one action: `true` iff
the run fails by raising on this parsed response (`none` models a `null`
response). -/
def result_raises (path : String) : Option Item → Bool
  | none => false
  | some r =>
    if hasKey r "error" then
      !(hasKey r "detail" && (getv r "detail" == some "no such command") &&
        str_ends_with path "/move")
    else false

/-! ## Well-formedness of imagined states -/

/-- `wf_from k s`: the item at offset `j` of `s` carries
`.id = mt_str (k + j + 1)`.  `wf_from 0 s` is the sorted compact id layout
`1, 2, …, n`. -/
def wf_from (k : Nat) : List Item → Bool
  | [] => true
  | it :: rest => (getv it ".id" == some (mtStrN (k + 1))) && wf_from (k + 1) rest

/-- A well-formed imagined state: position `i` holds id `i + 1` (hex). -/
def WF (s : List Item) : Prop :=
  wf_from 0 s = true

instance (s : List Item) : Decidable (WF s) :=
  inferInstanceAs (Decidable (wf_from 0 s = true))

/-- Every item has a `.id` that parses as hex. -/
def ids_ok (s : List Item) : Bool :=
  s.all (fun it =>
    match getv it ".id" with
    | some v => (mt_int (.s v)).isSome
    | none => false)

/-- Renumber: give the items ids `k, k+1, …` in order (used to state what
delete/move do to the tail of a well-formed state). -/
def re_id (k : Nat) : List Item → List Item
  | [] => []
  | it :: rest => dictInsert it ".id" (mtStrN k) :: re_id (k + 1) rest

/-- The directed match count of `_score_items`: entries of `x` (key not
`.id`) found in `y` with an equal value. -/
def score_count (x y : Item) : Nat :=
  (x.filter (fun kv => kv.1 != ".id" && (getv y kv.1 == some kv.2))).length

/-- The PATCH condition as a proposition: some desired entry's key is
absent from the current item with a non-empty desired value, or present
with a different value. -/
def PatchCond (c d : Item) : Prop :=
  ∃ kv ∈ d, (getv c kv.1 = none ∧ kv.2 ≠ "") ∨
    (∃ w, getv c kv.1 = some w ∧ w ≠ kv.2)

/-! ## Basic association-list lemmas -/

theorem getv_cons (a b : String) (l : Item) (k : String) :
    getv ((a, b) :: l) k = if a = k then some b else getv l k := by
  simp only [getv, List.find?_cons]
  by_cases h : a = k
  · simp [h]
  · simp [h, beq_eq_false_iff_ne.mpr h]

theorem getv_nil (k : String) : getv [] k = none := rfl

theorem getv_append (a b : Item) (k : String) :
    getv (a ++ b) k =
      match getv a k with
      | some v => some v
      | none => getv b k := by
  induction a with
  | nil => simp [getv_nil]
  | cons p r ih =>
    obtain ⟨x, y⟩ := p
    rw [List.cons_append, getv_cons, getv_cons]
    by_cases hxk : x = k
    · simp [hxk]
    · simp only [if_neg hxk]
      exact ih

theorem nodupKeys_cons {a b : String} {r : Item} (h : NodupKeys ((a, b) :: r)) :
    (∀ v, (a, v) ∉ r) ∧ NodupKeys r := by
  rw [NodupKeys, List.map_cons, List.nodup_cons] at h
  refine ⟨fun v hv => h.1 (List.mem_map.mpr ⟨(a, v), hv, rfl⟩), h.2⟩

theorem mem_of_getv_eq_some {l : Item} {k v : String}
    (h : getv l k = some v) : (k, v) ∈ l := by
  induction l with
  | nil => simp [getv_nil] at h
  | cons p r ih =>
    obtain ⟨a, b⟩ := p
    rw [getv_cons] at h
    by_cases hak : a = k
    · rw [if_pos hak] at h
      cases h
      cases hak
      exact List.mem_cons_self _ _
    · rw [if_neg hak] at h
      exact List.mem_cons_of_mem _ (ih h)

theorem getv_eq_some_of_mem {l : Item} {k v : String}
    (hnd : NodupKeys l) (h : (k, v) ∈ l) : getv l k = some v := by
  induction l with
  | nil => simp at h
  | cons p r ih =>
    obtain ⟨a, b⟩ := p
    rw [getv_cons]
    rcases List.mem_cons.mp h with h1 | h2
    · cases h1
      simp
    · have hcons := nodupKeys_cons hnd
      have hne : a ≠ k := fun hak => hcons.1 v (hak ▸ h2)
      rw [if_neg hne]
      exact ih hcons.2 h2

theorem getv_eq_none_iff {l : Item} {k : String} :
    getv l k = none ↔ ∀ v, (k, v) ∉ l := by
  induction l with
  | nil => simp [getv_nil]
  | cons p r ih =>
    obtain ⟨a, b⟩ := p
    rw [getv_cons]
    by_cases hak : a = k
    · subst hak
      rw [if_pos rfl]
      constructor
      · intro h
        exact Option.noConfusion h
      · intro h
        exact absurd (List.mem_cons_self _ _) (h b)
    · rw [if_neg hak, ih]
      constructor
      · intro h v hv
        rcases List.mem_cons.mp hv with h1 | h2
        · exact hak (congrArg Prod.fst h1.symm)
        · exact h v h2
      · intro h v hv
        exact h v (List.mem_cons_of_mem _ hv)

theorem dict_eq_to_MapEq {a b : Item} (h : dict_eq a b = true) : MapEq a b := by
  rw [dict_eq, Bool.and_eq_true] at h
  obtain ⟨h1, h2⟩ := h
  rw [List.all_eq_true] at h1 h2
  intro k
  cases hg : getv a k with
  | some v =>
    have hx := h1 _ (mem_of_getv_eq_some hg)
    rw [beq_iff_eq] at hx
    exact hx.symm
  | none =>
    cases hg2 : getv b k with
    | none => rfl
    | some w =>
      have hx := h2 _ (mem_of_getv_eq_some hg2)
      rw [beq_iff_eq] at hx
      rw [hg] at hx
      exact Option.noConfusion hx

theorem dict_eq_refl {a : Item} (hnd : NodupKeys a) : dict_eq a a = true := by
  rw [dict_eq, Bool.and_eq_true]
  constructor <;>
  · rw [List.all_eq_true]
    rintro ⟨k, v⟩ hm
    simp [getv_eq_some_of_mem hnd hm]

theorem getv_replace (a : Item) (k v k' : String) :
    getv (a.map (fun kv => if kv.1 == k then (k, v) else kv)) k' =
      if k' = k then (getv a k).map (fun _ => v) else getv a k' := by
  induction a with
  | nil => by_cases h : k' = k <;> simp [getv_nil, h]
  | cons p r ih =>
    obtain ⟨x, y⟩ := p
    rw [List.map_cons]
    by_cases hxk : x = k
    · subst hxk
      rw [if_pos (by simp)]
      by_cases hk'k : k' = x
      · subst hk'k
        simp [getv_cons]
      · rw [getv_cons, if_neg (fun h => hk'k h.symm), ih, if_neg hk'k,
          if_neg hk'k, getv_cons, if_neg (fun h => hk'k h.symm)]
    · rw [if_neg (show ¬((x == k) = true) by simp [hxk])]
      rw [getv_cons]
      by_cases hxx : x = k'
      · subst hxx
        rw [if_pos rfl, if_neg hxk, getv_cons, if_pos rfl]
      · rw [if_neg hxx, ih, getv_cons, if_neg hxk, getv_cons, if_neg hxx]

theorem getv_of_hasKey_false {a : Item} {k : String}
    (h : hasKey a k = false) : getv a k = none := by
  cases hg : getv a k with
  | none => rfl
  | some w =>
    rw [hasKey, hg] at h
    exact Bool.noConfusion h

theorem getv_dictInsert_self (a : Item) (k v : String) :
    getv (dictInsert a k v) k = some v := by
  rw [dictInsert]
  by_cases h : hasKey a k = true
  · rw [if_pos h, getv_replace, if_pos rfl]
    rw [hasKey, Option.isSome_iff_exists] at h
    obtain ⟨w, hw⟩ := h
    rw [hw]
    rfl
  · rw [if_neg h, getv_append]
    rw [getv_of_hasKey_false (Bool.not_eq_true _ ▸ h), getv_cons, if_pos rfl]

theorem getv_dictInsert_other (a : Item) (k v k' : String) (hne : k' ≠ k) :
    getv (dictInsert a k v) k' = getv a k' := by
  rw [dictInsert]
  by_cases h : hasKey a k = true
  · rw [if_pos h, getv_replace, if_neg hne]
  · rw [if_neg h, getv_append]
    cases hg : getv a k' with
    | some w => rfl
    | none => rw [getv_cons, if_neg (fun hh => hne hh.symm), getv_nil]

/-! ## Codec lemmas: `mt_str` / `mt_int` round-trip on canonical ids -/

theorem hexValOf_hexDigitChar {d : Nat} (h : d < 16) :
    hexValOf (hexDigitChar d) = some d := by
  interval_cases d <;> rfl

theorem hexDigitChar_ne_star {d : Nat} (h : d < 16) : hexDigitChar d ≠ '*' := by
  interval_cases d <;> decide

theorem natHexAux_irrel :
    ∀ (n f1 f2 : Nat), n < f1 → n < f2 → natHexAux f1 n = natHexAux f2 n := by
  intro n
  induction n using Nat.strong_induction_on with
  | _ n ih =>
    intro f1 f2 h1 h2
    cases f1 with
    | zero => omega
    | succ g1 =>
      cases f2 with
      | zero => omega
      | succ g2 =>
        rw [natHexAux, natHexAux]
        by_cases h16 : n < 16
        · rw [if_pos h16, if_pos h16]
        · rw [if_neg h16, if_neg h16]
          have hdiv : n / 16 < n := Nat.div_lt_self (by omega) (by omega)
          rw [ih (n / 16) hdiv g1 g2 (by omega) (by omega)]

theorem natHexDigits_eq (n : Nat) :
    natHexDigits n = if n < 16 then [hexDigitChar n]
      else natHexDigits (n / 16) ++ [hexDigitChar (n % 16)] := by
  rw [natHexDigits, natHexAux]
  by_cases h16 : n < 16
  · rw [if_pos h16, if_pos h16]
  · rw [if_neg h16, if_neg h16, natHexDigits]
    have hdiv : n / 16 < n := Nat.div_lt_self (by omega) (by omega)
    rw [natHexAux_irrel (n / 16) n (n / 16 + 1) hdiv (by omega)]

theorem natHexDigits_ne_nil (n : Nat) : natHexDigits n ≠ [] := by
  rw [natHexDigits_eq]
  split <;> simp

theorem mem_natHexDigits {n : Nat} :
    ∀ c ∈ natHexDigits n, ∃ d, d < 16 ∧ c = hexDigitChar d := by
  induction n using Nat.strong_induction_on with
  | _ n ih =>
    rw [natHexDigits_eq]
    by_cases h : n < 16
    · rw [if_pos h]
      intro c hc
      rw [List.mem_singleton] at hc
      exact ⟨n, h, hc⟩
    · rw [if_neg h]
      intro c hc
      rcases List.mem_append.mp hc with h1 | h2
      · exact ih (n / 16) (Nat.div_lt_self (by omega) (by omega)) c h1
      · rw [List.mem_singleton] at h2
        exact ⟨n % 16, Nat.mod_lt _ (by omega), h2⟩

theorem hexFold_natHexDigits (n : Nat) : ∀ acc : Nat,
    (natHexDigits n).foldlM
        (fun acc c => (hexValOf c).map (fun d => 16 * acc + d)) acc =
      some (acc * 16 ^ (natHexDigits n).length + n) := by
  induction n using Nat.strong_induction_on with
  | _ n ih =>
    intro acc
    rw [natHexDigits_eq]
    by_cases h : n < 16
    · rw [if_pos h]
      simp [List.foldlM, hexValOf_hexDigitChar h]
      ring
    · rw [if_neg h]
      rw [List.foldlM_append, ih (n / 16) (Nat.div_lt_self (by omega) (by omega)) acc]
      have h16 : n % 16 < 16 := Nat.mod_lt _ (by omega)
      simp [List.foldlM, hexValOf_hexDigitChar h16]
      rw [pow_succ]
      ring_nf
      omega

theorem hexListVal_natHexDigits (n : Nat) :
    hexListVal (natHexDigits n) = some n := by
  cases hd : natHexDigits n with
  | nil => exact absurd hd (natHexDigits_ne_nil n)
  | cons c rest =>
    have hfold := hexFold_natHexDigits n 0
    rw [hd] at hfold
    rw [hexListVal]
    rw [hfold]
    simp
    simp

theorem mtStrN_data (n : Nat) : (mtStrN n).data = natHexDigits n := rfl

theorem mt_int_s_of_data {v : String} {c : Char} {rest : List Char}
    (hv : v.data = c :: rest) :
    mt_int (.s v) = if c = '*' then (hexListVal rest).map Int.ofNat
      else (hexListVal (c :: rest)).map Int.ofNat := by
  simp only [mt_int]
  rw [hv]

theorem mt_int_mtStrN (n : Nat) : mt_int (.s (mtStrN n)) = some (n : Int) := by
  cases hd : natHexDigits n with
  | nil => exact absurd hd (natHexDigits_ne_nil n)
  | cons c rest =>
    have hcmem : c ∈ natHexDigits n := hd ▸ List.mem_cons_self c rest
    obtain ⟨d, hd16, rfl⟩ := mem_natHexDigits c hcmem
    rw [mt_int_s_of_data ((mtStrN_data n).trans hd)]
    rw [if_neg (hexDigitChar_ne_star hd16)]
    rw [← hd, hexListVal_natHexDigits]
    rfl

theorem mtStrN_inj {a b : Nat} (h : mtStrN a = mtStrN b) : a = b := by
  have ha := mt_int_mtStrN a
  rw [h, mt_int_mtStrN b] at ha
  exact_mod_cast (Option.some.inj ha).symm

theorem mt_str_ofNat (n : Nat) : mt_str (.i (n : Int)) = mtStrN n := by
  rw [mt_str, if_neg (by omega)]
  simp [mtStrN]

theorem mt_str_nonneg {m : Int} (h : 0 ≤ m) : mt_str (.i m) = mtStrN m.toNat := by
  rw [mt_str, if_neg (by omega)]
  rfl

theorem mt_str_s (v : String) : mt_str (.s v) = v := rfl

theorem mt_int_i (n : Int) : mt_int (.i n) = some n := rfl

/-! ## Step lemmas for the `Except`-valued operations -/

theorem idOf_ok {it : Item} {v : String} (hv : getv it ".id" = some v) :
    idOf it = Except.ok v := by
  simp [idOf, hv]

theorem update_cons {it : Item} {v : String} (rest : List Item)
    (id : String) (new : Item) (hv : getv it ".id" = some v) :
    Imagined.update (it :: rest) id new =
      if v = mt_str (.s id) then .ok (dictInsert new ".id" v :: rest)
      else
        match Imagined.update rest id new with
        | .error e => .error e
        | .ok rest' => .ok (it :: rest') := by
  simp only [Imagined.update, idOf_ok hv]

theorem update_total (im : List Item) (id : String) (new : Item)
    (him : ∀ it ∈ im, hasKey it ".id" = true) :
    ∃ im', Imagined.update im id new = .ok im' := by
  induction im with
  | nil => exact ⟨[], rfl⟩
  | cons it rest ih =>
    have hit := him it (List.mem_cons_self _ _)
    rw [hasKey, Option.isSome_iff_exists] at hit
    obtain ⟨v, hv⟩ := hit
    obtain ⟨rest', hrest'⟩ := ih (fun x hx => him x (List.mem_cons_of_mem _ hx))
    rw [update_cons rest id new hv]
    by_cases hvid : v = mt_str (.s id)
    · exact ⟨dictInsert new ".id" v :: rest, by rw [if_pos hvid]⟩
    · exact ⟨it :: rest', by rw [if_neg hvid, hrest']⟩

/-! ## Claim C9: executor error handling -/

/-- **C9.** During execution, an action whose parsed response is an object
containing the key `error` makes the run fail by raising, with exactly one
exception: a path ending in `/move` together with a `detail` equal to
`"no such command"` is silently ignored and execution continues. -/
theorem claim_C9_error_handling (path : String) (r : Item)
    (herr : hasKey r "error" = true) :
    result_raises path (some r) = false ↔
      (getv r "detail" = some "no such command" ∧
        str_ends_with path "/move" = true) := by
  simp only [result_raises, if_pos herr]
  rw [Bool.not_eq_false']
  simp only [Bool.and_eq_true, beq_iff_eq]
  constructor
  · rintro ⟨⟨-, hdet⟩, hmv⟩
    exact ⟨hdet, hmv⟩
  · rintro ⟨hdet, hmv⟩
    exact ⟨⟨by simp [hasKey, hdet], hdet⟩, hmv⟩

/-- Witness for C9: a move-path error response with
`detail = "no such command"` is tolerated. -/
theorem claim_C9_error_handling_witness :
    result_raises "/ip/route/move"
      (some [("error", "x"), ("detail", "no such command")]) = false :=
  (claim_C9_error_handling "/ip/route/move"
    [("error", "x"), ("detail", "no such command")] (by decide)).mpr
    ⟨by decide, by decide⟩

/-! ## Claim C7: the per-pair PATCH condition of phase 1 -/

theorem patch_needed_iff (c : Item) (kv : String × String) :
    patch_needed c kv = true ↔
      ((getv c kv.1 = none ∧ kv.2 ≠ "") ∨
        (∃ w, getv c kv.1 = some w ∧ w ≠ kv.2)) := by
  rw [patch_needed]
  cases hg : getv c kv.1 with
  | none => simp [hg]
  | some w => simp [hg]

theorem patch_find_none_iff (c d : Item) :
    d.find? (fun kv => patch_needed c kv) = none ↔ ¬ PatchCond c d := by
  rw [List.find?_eq_none]
  constructor
  · intro h hpc
    obtain ⟨kv, hm, hcond⟩ := hpc
    exact (h kv hm) ((patch_needed_iff c kv).mpr hcond)
  · intro h kv hm hp
    exact h ⟨kv, hm, (patch_needed_iff c kv).mp hp⟩

/-- **C7.** For a matched pair `(c, d)` at `path`, exactly one PATCH at
`path/<c[".id"]>` with `set_dict = d` is emitted iff some key of `d` is
absent from `c` with a non-empty value or present with a different value;
the imagined list is updated exactly when the PATCH is emitted, and is
left untouched otherwise. -/
theorem claim_C7_patch_condition (path : String) (c d : Item)
    (im : List Item) (cid : String) (hc : getv c ".id" = some cid)
    (him : ∀ it ∈ im, hasKey it ".id" = true) :
    (pair_patch path c d im = .ok ([], im) ↔ ¬ PatchCond c d) ∧
    (PatchCond c d → ∃ im', Imagined.update im cid d = .ok im' ∧
      pair_patch path c d im =
        .ok ([{ kind := .PATCH, path := path ++ "/" ++ cid, set_dict := d,
                current_dict := c }], im')) := by
  cases hf : d.find? (fun kv => patch_needed c kv) with
  | none =>
    have hnc : ¬ PatchCond c d := (patch_find_none_iff c d).mp hf
    refine ⟨?_, fun hpc => absurd hpc hnc⟩
    simp only [pair_patch, hf]
    simpa using hnc
  | some kv =>
    have hpc : PatchCond c d := by
      have hm := List.mem_of_find?_eq_some hf
      have hp := List.find?_some hf
      rw [patch_needed_iff] at hp
      exact ⟨kv, hm, hp⟩
    obtain ⟨im', him'⟩ := update_total im cid d him
    have hpp : pair_patch path c d im =
        .ok ([{ kind := .PATCH, path := path ++ "/" ++ cid, set_dict := d,
                current_dict := c }], im') := by
      simp only [pair_patch, hf, idOf_ok hc, him']
    constructor
    · rw [hpp]
      constructor
      · intro h
        simp at h
      · intro h
        exact absurd hpc h
    · intro _
      exact ⟨im', him', hpp⟩

/-- Witness for C7: a pair differing at one key yields the PATCH and the
imagined update; an empty-string desired value absent from current does
not. -/
theorem claim_C7_patch_condition_witness :
    (pair_patch "/p" [(".id", "1"), ("k", "a")] [("k", "b")]
        [[(".id", "1"), ("k", "a")]] =
      .ok ([{ kind := .PATCH, path := "/p" ++ "/" ++ "1",
              set_dict := [("k", "b")],
              current_dict := [(".id", "1"), ("k", "a")] }],
        [[("k", "b"), (".id", "1")]])) ∧
    (pair_patch "/p" [(".id", "1"), ("k", "a")] [("k", "a"), ("e", "")]
        [[(".id", "1"), ("k", "a")]] =
      .ok ([], [[(".id", "1"), ("k", "a")]])) := by
  constructor
  · obtain ⟨im', h1, h2⟩ := (claim_C7_patch_condition "/p"
      [(".id", "1"), ("k", "a")] [("k", "b")] [[(".id", "1"), ("k", "a")]]
      "1" (by decide) (by decide)).2
      ⟨("k", "b"), by decide, by right; exact ⟨"a", by decide, by decide⟩⟩
    have him' : im' = [[("k", "b"), (".id", "1")]] := by
      have hok := h1.symm.trans (show
        Imagined.update [[(".id", "1"), ("k", "a")]] "1" [("k", "b")] =
          .ok [[("k", "b"), (".id", "1")]] from rfl)
      exact Except.ok.inj hok
    rw [← him']
    exact h2
  · exact (claim_C7_patch_condition "/p" [(".id", "1"), ("k", "a")]
      [("k", "a"), ("e", "")] [[(".id", "1"), ("k", "a")]] "1" (by decide)
      (by decide)).1.mpr (by
        rintro ⟨kv, hm, hcond⟩
        rcases List.mem_cons.mp hm with h1 | h2
        · subst h1
          rcases hcond with ⟨hn, -⟩ | ⟨w, hw, hne⟩
          · exact Option.noConfusion ((by decide :
              getv [(".id", "1"), ("k", "a")] "k" = some "a").symm.trans hn)
          · exact hne (Option.some.inj ((by decide :
              getv [(".id", "1"), ("k", "a")] "k" = some "a").symm.trans
                hw)).symm
        · rcases List.mem_singleton.mp h2 with rfl
          rcases hcond with ⟨-, hne⟩ | ⟨w, hw, -⟩
          · exact hne rfl
          · exact Option.noConfusion ((by decide :
              getv [(".id", "1"), ("k", "a")] "e" = none).symm.trans hw))

/-! ## Claim C8: the leaf-settings (dict) reconciler -/

theorem analyze_dict_go_spec (path : String) (current desired : Item) :
    ∀ pending : Item, (∀ kv ∈ pending, hasKey current kv.1 = true) →
    analyze_dict_go path current desired pending =
      if pending.all (fun kv => getv current kv.1 == some kv.2) then .ok []
      else .ok [{ kind := .POST, path := path ++ "/set",
                  set_dict := desired, current_dict := current }] := by
  intro pending
  induction pending with
  | nil => intro _; simp [analyze_dict_go]
  | cons kv rest ih =>
    intro hk
    have hkv := hk kv (List.mem_cons_self _ _)
    rw [hasKey, Option.isSome_iff_exists] at hkv
    obtain ⟨w, hw⟩ := hkv
    simp only [analyze_dict_go, hw]
    by_cases hwv : w = kv.2
    · rw [if_neg (by simpa using hwv)]
      rw [ih (fun x hx => hk x (List.mem_cons_of_mem _ hx))]
      have hhead : (getv current kv.1 == some kv.2) = true := by
        rw [hw, hwv]
        simp
      simp only [List.all_cons, hhead, Bool.true_and]
    · rw [if_pos hwv]
      have hhead : (getv current kv.1 == some kv.2) = false := by
        rw [hw]
        simpa using hwv
      simp only [List.all_cons, hhead, Bool.false_and, Bool.false_eq_true,
        if_false]

/-- **C8 (counterexample to the claim as stated).** A desired key absent
from the current leaf state does not produce a POST: the analysis raises a
`KeyError` instead. -/
theorem claim_C8_counterexample :
    analyze_dict "/ip/settings" [] [("rp-filter", "no")] =
      .error "KeyError: rp-filter" := rfl

/-- **C8 (amended).** For a leaf settings mapping whose desired keys are
all present in the current state, the dict reconciler emits zero actions
when every desired key already has the desired value, and otherwise emits
exactly one POST at `path/set` whose `set_dict` is the entire desired
dict.  (A desired key absent from the current state instead raises
`KeyError`.) -/
theorem claim_C8_amended (path : String) (current desired : Item)
    (hk : ∀ kv ∈ desired, hasKey current kv.1 = true) :
    analyze_dict path current desired =
      if desired.all (fun kv => getv current kv.1 == some kv.2) then .ok []
      else .ok [{ kind := .POST, path := path ++ "/set",
                  set_dict := desired, current_dict := current }] :=
  analyze_dict_go_spec path current desired desired hk

/-- Witness for C8 (amended): one differing key yields the single POST;
matching values yield no action. -/
theorem claim_C8_amended_witness :
    (analyze_dict "/x" [("a", "1")] [("a", "2")] =
      .ok [{ kind := .POST, path := "/x" ++ "/set", set_dict := [("a", "2")],
             current_dict := [("a", "1")] }]) ∧
    (analyze_dict "/x" [("a", "1")] [("a", "1")] = .ok []) :=
  ⟨(claim_C8_amended "/x" [("a", "1")] [("a", "2")] (by decide)).trans
    (by rfl),
   (claim_C8_amended "/x" [("a", "1")] [("a", "1")] (by decide)).trans
    (by rfl)⟩

/-! ## Claim C10: update/delete on an absent id are silent no-ops -/

theorem find_id_idx_none (target : String) :
    ∀ (state : List Item) (k : Nat),
    (∀ it ∈ state, ∃ v, getv it ".id" = some v ∧ v ≠ target) →
    Imagined.find_id_idx state target k = .ok none := by
  intro state
  induction state with
  | nil => intro k _; rfl
  | cons it rest ih =>
    intro k habs
    obtain ⟨v, hv, hne⟩ := habs it (List.mem_cons_self _ _)
    simp only [Imagined.find_id_idx, idOf_ok hv]
    rw [if_neg hne]
    exact ih (k + 1) (fun x hx => habs x (List.mem_cons_of_mem _ hx))

theorem scan_ids_none_src (sn dn : String) :
    ∀ (state : List Item) (k : Nat) (acc2 : Option Nat),
    (∀ it ∈ state, ∃ v, getv it ".id" = some v ∧ v ≠ sn) →
    ∃ r, Imagined.scan_ids state sn dn k (none, acc2) = .ok (none, r) := by
  intro state
  induction state with
  | nil => intro k acc2 _; exact ⟨acc2, rfl⟩
  | cons it rest ih =>
    intro k acc2 habs
    obtain ⟨v, hv, hne⟩ := habs it (List.mem_cons_self _ _)
    simp only [Imagined.scan_ids, idOf_ok hv]
    rw [if_neg hne]
    exact ih (k + 1) _ (fun x hx => habs x (List.mem_cons_of_mem _ hx))

/-- **C10.** `Imagined.update` and `Imagined.delete` on an id matched by
no item return normally with the state unchanged, while `Imagined.move`
with an absent source id raises. -/
theorem claim_C10_absent_id_noop (state : List Item) (id : String)
    (new : Item)
    (habs : ∀ it ∈ state, ∃ v, getv it ".id" = some v ∧ v ≠ id) :
    Imagined.update state id new = .ok state ∧
    Imagined.delete state (.s id) = .ok state ∧
    (∀ dst, Imagined.move state (.s id) dst =
      .error "Unable to find either source id or destination id") := by
  refine ⟨?_, ?_, ?_⟩
  · induction state with
    | nil => rfl
    | cons it rest ih =>
      obtain ⟨v, hv, hne⟩ := habs it (List.mem_cons_self _ _)
      rw [update_cons rest id new hv,
        if_neg (by rw [mt_str_s]; exact hne),
        ih (fun x hx => habs x (List.mem_cons_of_mem _ hx))]
  · have hfind := find_id_idx_none (mt_str (.s id)) state 0
      (by rw [mt_str_s]; exact habs)
    simp only [Imagined.delete, hfind]
  · intro dst
    obtain ⟨r, hr⟩ := scan_ids_none_src (mt_str (.s id)) (mt_str dst) state 0
      none (by rw [mt_str_s]; exact habs)
    simp only [Imagined.move, hr]

/-- Witness for C10 on a one-item state and an id it does not contain. -/
theorem claim_C10_absent_id_noop_witness :
    Imagined.update [[(".id", "1")]] "2" [("k", "v")] =
        .ok [[(".id", "1")]] ∧
    Imagined.delete [[(".id", "1")]] (.s "2") = .ok [[(".id", "1")]] ∧
    Imagined.move [[(".id", "1")]] (.s "2") (.s "1") =
      .error "Unable to find either source id or destination id" := by
  have habs : ∀ it ∈ [[(".id", "1")]], ∃ v, getv it ".id" = some v ∧
      v ≠ "2" := by
    intro it h
    rw [List.mem_singleton] at h
    subst h
    exact ⟨"1", rfl, by decide⟩
  exact ⟨(claim_C10_absent_id_noop [[(".id", "1")]] "2" [("k", "v")] habs).1,
    (claim_C10_absent_id_noop [[(".id", "1")]] "2" [("k", "v")] habs).2.1,
    (claim_C10_absent_id_noop [[(".id", "1")]] "2" [("k", "v")] habs).2.2
      (.s "1")⟩

/-! ## Well-formedness lemmas -/

theorem wf_from_cons {k : Nat} {it : Item} {rest : List Item} :
    wf_from k (it :: rest) = true ↔
      (getv it ".id" = some (mtStrN (k + 1)) ∧ wf_from (k + 1) rest = true) := by
  rw [wf_from, Bool.and_eq_true, beq_iff_eq]

theorem wf_from_append {k : Nat} {a b : List Item} :
    wf_from k (a ++ b) = true ↔
      (wf_from k a = true ∧ wf_from (k + a.length) b = true) := by
  induction a generalizing k with
  | nil => simp [wf_from]
  | cons it rest ih =>
    rw [List.cons_append, wf_from_cons, wf_from_cons, ih]
    constructor
    · rintro ⟨h1, h2, h3⟩
      refine ⟨⟨h1, h2⟩, ?_⟩
      rw [List.length_cons]
      have : k + (rest.length + 1) = k + 1 + rest.length := by omega
      rw [this]
      exact h3
    · rintro ⟨⟨h1, h2⟩, h3⟩
      refine ⟨h1, h2, ?_⟩
      rw [List.length_cons] at h3
      have : k + 1 + rest.length = k + (rest.length + 1) := by omega
      rw [this]
      exact h3

theorem wf_from_ids {k : Nat} {s : List Item} (h : wf_from k s = true) :
    ∀ it ∈ s, ∃ j, j < s.length ∧ getv it ".id" = some (mtStrN (k + j + 1)) := by
  induction s generalizing k with
  | nil => simp
  | cons it rest ih =>
    rw [wf_from_cons] at h
    intro x hx
    rcases List.mem_cons.mp hx with h1 | h2
    · subst h1
      exact ⟨0, by simp, h.1⟩
    · obtain ⟨j, hj, hg⟩ := ih h.2 x h2
      refine ⟨j + 1, by simp; omega, ?_⟩
      have : k + (j + 1) + 1 = k + 1 + j + 1 := by omega
      rw [this]
      exact hg

theorem re_id_length (k : Nat) (s : List Item) :
    (re_id k s).length = s.length := by
  induction s generalizing k with
  | nil => rfl
  | cons it rest ih => simp [re_id, ih]

theorem wf_from_re_id (k : Nat) (s : List Item) :
    wf_from k (re_id (k + 1) s) = true := by
  induction s generalizing k with
  | nil => rfl
  | cons it rest ih =>
    rw [re_id, wf_from_cons]
    exact ⟨getv_dictInsert_self it ".id" (mtStrN (k + 1)), ih (k + 1)⟩

/-! ## The `_move_all_between` zone lemmas -/

theorem mab_item_of_id {it : Item} {m : Nat}
    (hid : getv it ".id" = some (mtStrN m)) (bottom top : Option MtV)
    (change : Int) :
    mab_item it bottom top change =
      match boundLo (m : Int) bottom with
      | .error e => .error e
      | .ok lo =>
        if lo then
          match boundHi (m : Int) top with
          | .error e => .error e
          | .ok hi =>
            if hi then .ok (dictInsert it ".id" (mt_str (.i ((m : Int) + change))))
            else .ok it
        else .ok it := by
  simp only [mab_item, idOf_ok hid, mt_int_mtStrN m]

theorem boundLo_int (n : Int) (b : Int) :
    boundLo n (some (.i b)) = .ok (decide (b ≤ n)) := rfl

theorem boundLo_str (n : Int) {v : String} {b : Int}
    (hb : mt_int (.s v) = some b) :
    boundLo n (some (.s v)) = .ok (decide (b ≤ n)) := by
  simp only [boundLo, hb]

theorem boundHi_str (n : Int) {v : String} {b : Int}
    (hb : mt_int (.s v) = some b) :
    boundHi n (some (.s v)) = .ok (decide (n < b)) := by
  simp only [boundHi, hb]

/-- Items with ids entirely below `bottom` are untouched. -/
theorem mab_list_below {s : List Item} {k : Nat} (hwf : wf_from k s = true)
    {bv : MtV} {B : Int} (hB : mt_int bv = some B)
    (hlt : (k : Int) + s.length < B) (top : Option MtV) (change : Int) :
    Imagined.move_all_between s (some bv) top change = .ok s := by
  induction s generalizing k with
  | nil => rfl
  | cons it rest ih =>
    rw [wf_from_cons] at hwf
    rw [Imagined.move_all_between,
      mab_item_of_id hwf.1 (some bv) top change]
    have hlo : boundLo ((k + 1 : Nat) : Int) (some bv) = .ok false := by
      simp only [boundLo, hB]
      simp only [Except.ok.injEq, decide_eq_false_iff_not]
      push_cast
      rw [List.length_cons] at hlt
      push_cast at hlt
      omega
    rw [hlo]
    simp only [Bool.false_eq_true, if_false]
    rw [ih hwf.2 (by rw [List.length_cons] at hlt; push_cast at hlt ⊢; omega)]

/-- Items with ids entirely at or above `bottom` and below `top` are all
shifted by `change`; with `change = 1` a well-formed segment becomes the
renumbered segment `re_id (k + 2) s`. -/
theorem mab_list_shift_up {s : List Item} {k : Nat} (hwf : wf_from k s = true)
    {bv tv : MtV} {B S : Int} (hB : mt_int bv = some B)
    (hS : mt_int tv = some S) (hgeB : B ≤ (k : Int) + 1)
    (hltS : (k : Int) + s.length < S) :
    Imagined.move_all_between s (some bv) (some tv) 1 =
      .ok (re_id (k + 2) s) := by
  induction s generalizing k with
  | nil => rfl
  | cons it rest ih =>
    rw [wf_from_cons] at hwf
    rw [Imagined.move_all_between,
      mab_item_of_id hwf.1 (some bv) (some tv) 1]
    have hlo : boundLo (((k + 1 : Nat) : Int)) (some bv) = .ok true := by
      simp only [boundLo, hB]
      simp only [Except.ok.injEq, decide_eq_true_eq]
      push_cast
      omega
    have hhi : boundHi (((k + 1 : Nat) : Int)) (some tv) = .ok true := by
      simp only [boundHi, hS]
      simp only [Except.ok.injEq, decide_eq_true_eq]
      rw [List.length_cons] at hltS
      push_cast at hltS ⊢
      omega
    rw [hlo]
    simp only [if_true]
    rw [hhi]
    simp only [if_true]
    have hshift : mt_str (.i (((k + 1 : Nat) : Int) + 1)) = mtStrN (k + 2) := by
      rw [show (((k + 1 : Nat) : Int) + 1) = ((k + 2 : Nat) : Int) by push_cast; ring]
      exact mt_str_ofNat (k + 2)
    rw [hshift]
    rw [ih hwf.2 (by push_cast at hgeB ⊢; omega)
      (by rw [List.length_cons] at hltS; push_cast at hltS ⊢; omega)]
    rw [re_id]

/-- Items with ids entirely at or above `top` (and above `bottom`) are
untouched. -/
theorem mab_list_above {s : List Item} {k : Nat} (hwf : wf_from k s = true)
    {bv tv : MtV} {B S : Int} (hB : mt_int bv = some B)
    (hS : mt_int tv = some S) (hBk : B ≤ (k : Int) + 1)
    (hSk : S ≤ (k : Int) + 1) (change : Int) :
    Imagined.move_all_between s (some bv) (some tv) change = .ok s := by
  induction s generalizing k with
  | nil => rfl
  | cons it rest ih =>
    rw [wf_from_cons] at hwf
    rw [Imagined.move_all_between,
      mab_item_of_id hwf.1 (some bv) (some tv) change]
    have hlo : boundLo (((k + 1 : Nat) : Int)) (some bv) = .ok true := by
      simp only [boundLo, hB]
      simp only [Except.ok.injEq, decide_eq_true_eq]
      push_cast
      omega
    have hhi : boundHi (((k + 1 : Nat) : Int)) (some tv) = .ok false := by
      simp only [boundHi, hS]
      simp only [Except.ok.injEq, decide_eq_false_iff_not]
      push_cast
      omega
    rw [hlo]
    simp only [if_true]
    rw [hhi]
    simp only [Bool.false_eq_true, if_false]
    rw [ih hwf.2 (by push_cast at hSk ⊢; omega) (by push_cast at hSk ⊢; omega)]

/-- Decrement zone: every id at or above `bottom = B ≤ k + 1`, no upper
bound: a well-formed segment becomes `re_id k s`. -/
theorem mab_list_shift_down {s : List Item} {k : Nat}
    (hwf : wf_from k s = true) {bv : MtV} {B : Int} (hB : mt_int bv = some B)
    (hgeB : B ≤ (k : Int) + 1) :
    Imagined.move_all_between s (some bv) none (-1) = .ok (re_id k s) := by
  induction s generalizing k with
  | nil => rfl
  | cons it rest ih =>
    rw [wf_from_cons] at hwf
    rw [Imagined.move_all_between,
      mab_item_of_id hwf.1 (some bv) none (-1)]
    have hlo : boundLo (((k + 1 : Nat) : Int)) (some bv) = .ok true := by
      simp only [boundLo, hB]
      simp only [Except.ok.injEq, decide_eq_true_eq]
      push_cast
      omega
    rw [hlo]
    simp only [if_true, boundHi]
    have hshift : mt_str (.i (((k + 1 : Nat) : Int) + (-1))) = mtStrN k := by
      rw [show (((k + 1 : Nat) : Int) + (-1)) = ((k : Nat) : Int) by push_cast; ring]
      exact mt_str_ofNat k
    rw [hshift]
    rw [ih hwf.2 (by push_cast at hgeB ⊢; omega)]
    rw [re_id]

/-- `_move_all_between` distributes over list append. -/
theorem mab_list_append {a b a' b' : List Item} {bottom top : Option MtV}
    {change : Int}
    (ha : Imagined.move_all_between a bottom top change = .ok a')
    (hb : Imagined.move_all_between b bottom top change = .ok b') :
    Imagined.move_all_between (a ++ b) bottom top change = .ok (a' ++ b') := by
  induction a generalizing a' with
  | nil =>
    cases ha
    simpa using hb
  | cons it rest ih =>
    rw [Imagined.move_all_between] at ha
    rw [List.cons_append, Imagined.move_all_between]
    cases hit : mab_item it bottom top change with
    | error e => rw [hit] at ha; exact Except.noConfusion ha
    | ok it' =>
      rw [hit] at ha
      cases hrest : Imagined.move_all_between rest bottom top change with
      | error e => rw [hrest] at ha; exact Except.noConfusion ha
      | ok rest' =>
        rw [hrest] at ha
        cases ha
        rw [ih hrest]
        rfl

/-! ## `find_id_idx` under well-formedness; list boundary helpers -/

theorem find_id_idx_wf_hit :
    ∀ (s : List Item) (k m : Nat), wf_from k s = true → k < m →
    m ≤ k + s.length →
    Imagined.find_id_idx s (mtStrN m) k = .ok (some (m - 1)) := by
  intro s
  induction s with
  | nil => intro k m _ h1 h2; simp at h1 h2; omega
  | cons it rest ih =>
    intro k m hwf h1 h2
    rw [wf_from_cons] at hwf
    rw [Imagined.find_id_idx]
    simp only [idOf_ok hwf.1]
    by_cases hm : m = k + 1
    · rw [if_pos (by rw [hm])]
      rw [hm]
      simp
    · rw [if_neg (fun hc => hm (mtStrN_inj hc).symm)]
      exact ih (k + 1) m hwf.2 (by omega)
        (by rw [List.length_cons] at h2; omega)

theorem find_id_idx_wf_miss :
    ∀ (s : List Item) (k : Nat) (t : String), wf_from k s = true →
    (∀ m, k < m → m ≤ k + s.length → t ≠ mtStrN m) →
    Imagined.find_id_idx s t k = .ok none := by
  intro s
  induction s with
  | nil => intro k t _ _; rfl
  | cons it rest ih =>
    intro k t hwf hmiss
    rw [wf_from_cons] at hwf
    rw [Imagined.find_id_idx]
    simp only [idOf_ok hwf.1]
    rw [if_neg (fun hc => hmiss (k + 1) (by omega)
      (by rw [List.length_cons]; omega) hc.symm)]
    exact ih (k + 1) t hwf.2
      (fun m hm1 hm2 => hmiss m (by omega)
        (by rw [List.length_cons]; omega))

theorem listInsertAt_len (A : List Item) (v : Item) (r : List Item) :
    listInsertAt A.length v (A ++ r) = A ++ v :: r := by
  induction A with
  | nil => rfl
  | cons a rest ih => simp [listInsertAt, ih]

theorem eraseIdx_len (A : List Item) (v : Item) (r : List Item) :
    (A ++ v :: r).eraseIdx A.length = A ++ r := by
  induction A with
  | nil => rfl
  | cons a rest ih => simp [List.eraseIdx, ih]

theorem set_len (A : List Item) (v w : Item) (r : List Item) :
    (A ++ v :: r).set A.length w = A ++ w :: r := by
  induction A with
  | nil => rfl
  | cons a rest ih => simp [List.set, ih]

theorem getq_len (A : List Item) (v : Item) (r : List Item) :
    (A ++ v :: r).get? A.length = some v := by
  rw [List.get?_eq_getElem?, List.getElem?_append_right (le_refl _)]
  simp

/-! ## `Imagined.delete` on well-formed states -/

/-- Deleting the item at position `|A|` (id `|A| + 1`) of a well-formed
state removes it and renumbers the tail down by one. -/
theorem delete_hit (A : List Item) (x : Item) (B : List Item) (id : MtV)
    (hwf : WF (A ++ x :: B)) (hid : mt_str id = mtStrN (A.length + 1)) :
    Imagined.delete (A ++ x :: B) id = .ok (A ++ re_id (A.length + 1) B) := by
  rw [WF, wf_from_append] at hwf
  obtain ⟨hA, hxB⟩ := hwf
  rw [wf_from_cons] at hxB
  rw [Nat.zero_add] at hxB
  have hfind : Imagined.find_id_idx (A ++ x :: B) (mt_str id) 0 =
      .ok (some A.length) := by
    rw [hid]
    have := find_id_idx_wf_hit (A ++ x :: B) 0 (A.length + 1)
      (by rw [wf_from_append]; rw [wf_from_cons]; rw [Nat.zero_add]
          exact ⟨hA, hxB.1, hxB.2⟩)
      (by omega) (by simp)
    simpa using this
  simp only [Imagined.delete, hfind]
  rw [eraseIdx_len]
  have hAuntouched : Imagined.move_all_between A
      (some (.i ((A.length : Int) + 1))) none (-1) = .ok A :=
    mab_list_below hA (mt_int_i ((A.length : Int) + 1)) (by push_cast; omega)
      none (-1)
  have hBshift : Imagined.move_all_between B
      (some (.i ((A.length : Int) + 1))) none (-1) =
        .ok (re_id (A.length + 1) B) :=
    mab_list_shift_down hxB.2 (mt_int_i ((A.length : Int) + 1))
      (by push_cast; omega)
  exact mab_list_append hAuntouched hBshift

/-! ## Claim C5: delete with renumbering -/

/-- **C5 (counterexample to the claim as stated).** On a state that is not
in id order, `delete` renumbers by *position*, not by id: deleting id 2
from `[{.id:2,k:b},{.id:1,k:a},{.id:3,k:c}]` decrements every id `≥ 1`
(the removed position was 0), producing id 0 — not the claimed behaviour
of decrementing only ids greater than 2. -/
theorem claim_C5_counterexample :
    Imagined.delete
        [[(".id", "2"), ("k", "b")], [(".id", "1"), ("k", "a")],
         [(".id", "3"), ("k", "c")]] (.s "2") =
      .ok [[(".id", "0"), ("k", "a")], [(".id", "2"), ("k", "c")]] := rfl

/-- **C5 (amended).** On a *well-formed* imagined list (position `i` holds
id `i + 1`), `delete` of a present id removes exactly that item and
decrements the id of every item whose id exceeds the removed one, leaving
all other ids and all non-id fields unchanged. -/
theorem claim_C5_amended_delete (A : List Item) (x : Item) (B : List Item)
    (hwf : WF (A ++ x :: B)) :
    Imagined.delete (A ++ x :: B) (.s (mtStrN (A.length + 1))) =
      .ok (A ++ re_id (A.length + 1) B) :=
  delete_hit A x B (.s (mtStrN (A.length + 1))) hwf (mt_str_s _)

/-- Witness for C5 (amended): the spec's own delete scenario. -/
theorem claim_C5_amended_delete_witness :
    Imagined.delete
        [[(".id", "1"), ("k", "a")], [(".id", "2"), ("k", "b")],
         [(".id", "3"), ("k", "c")]] (.s "2") =
      .ok [[(".id", "1"), ("k", "a")], [(".id", "2"), ("k", "c")]] := by
  have h := claim_C5_amended_delete [[(".id", "1"), ("k", "a")]]
    [(".id", "2"), ("k", "b")] [[(".id", "3"), ("k", "c")]] (by decide)
  exact h

/-! ## Claim C4: append and `_max_id` -/

theorem max_id_go_wf :
    ∀ (s : List Item) (k : Nat) (acc : Int), wf_from k s = true → s ≠ [] →
    Imagined.max_id_go s acc = .ok (max acc ((k : Int) + s.length)) := by
  intro s
  induction s with
  | nil => intro _ _ _ h; exact absurd rfl h
  | cons it rest ih =>
    intro k acc hwf _
    rw [wf_from_cons] at hwf
    rw [Imagined.max_id_go]
    simp only [idOf_ok hwf.1, mt_int_mtStrN (k + 1)]
    cases hrest : rest with
    | nil =>
      subst hrest
      rw [Imagined.max_id_go]
      simp only [List.length_cons, List.length_nil, Except.ok.injEq]
      push_cast
      split_ifs with h <;> omega
    | cons r rs =>
      rw [← hrest]
      rw [ih k.succ _ (hrest ▸ hwf.2 : wf_from (k + 1) rest = true)
        (by rw [hrest]; simp)]
      simp only [List.length_cons, Except.ok.injEq]
      push_cast
      split_ifs with h <;> omega

theorem max_id_wf (s : List Item) (hwf : WF s) (hne : s ≠ []) :
    Imagined.max_id s = .ok (s.length : Int) := by
  rw [Imagined.max_id, max_id_go_wf s 0 1 hwf hne]
  have hl : 1 ≤ s.length := by
    cases s with
    | nil => exact absurd rfl hne
    | cons a r => simp
  simp only [Except.ok.injEq]
  push_cast
  omega

/-- **C4 (counterexample to the claim as stated).** `_max_id` starts its
fold at 1, not 0, so the first append on an *empty* imagined list assigns
id 2, not id 1. -/
theorem claim_C4_counterexample :
    Imagined.append [] [("key", "v1")] =
      .ok [[("key", "v1"), (".id", "2")]] := rfl

/-- **C4 (amended).** On a well-formed imagined list, `append` appends a
copy of the item with `.id = mt_str(max_id + 1)`, where `max_id` is the
maximum numeric id floored at 1 — the state's length when non-empty, and 1
when empty, so the first append on an empty list assigns id 2. -/
theorem claim_C4_amended_append (s : List Item) (item : Item)
    (hwf : WF s) :
    Imagined.append s item =
      .ok (s ++ [dictInsert item ".id"
        (mtStrN (if s.length = 0 then 2 else s.length + 1))]) := by
  cases s with
  | nil => rfl
  | cons it rest =>
    have hcast : mt_str (.i (((it :: rest).length : Int) + 1)) =
        mtStrN ((it :: rest).length + 1) := by
      rw [show (((it :: rest).length : Int) + 1) =
        (((it :: rest).length + 1 : Nat) : Int) by push_cast; ring]
      exact mt_str_ofNat _
    rw [Imagined.append, max_id_wf (it :: rest) hwf (by simp)]
    show Except.ok ((it :: rest) ++ [dictInsert item ".id"
      (mt_str (.i (((it :: rest).length : Int) + 1)))]) = _
    rw [hcast, if_neg (by simp)]

/-- Witness for C4 (amended): appending to a well-formed two-item list
assigns id 3; to the empty list, id 2. -/
theorem claim_C4_amended_append_witness :
    (Imagined.append [[(".id", "1")], [(".id", "2")]] [("k", "v")] =
      .ok [[(".id", "1")], [(".id", "2")], [("k", "v"), (".id", "3")]]) ∧
    (Imagined.append [] [("k", "v")] =
      .ok [[("k", "v"), (".id", "2")]]) :=
  ⟨(claim_C4_amended_append [[(".id", "1")], [(".id", "2")]] [("k", "v")]
      (by decide)).trans (by rfl),
   (claim_C4_amended_append [] [("k", "v")] (by decide)).trans (by rfl)⟩

/-! ## `Imagined.update` preserves well-formedness -/

theorem update_wf :
    ∀ (s : List Item) (k : Nat) (id : String) (new : Item),
    wf_from k s = true →
    ∃ s', Imagined.update s id new = .ok s' ∧ wf_from k s' = true := by
  intro s
  induction s with
  | nil => intro k id new _; exact ⟨[], rfl, rfl⟩
  | cons it rest ih =>
    intro k id new hwf
    rw [wf_from_cons] at hwf
    rw [update_cons rest id new hwf.1]
    by_cases hvid : mtStrN (k + 1) = mt_str (.s id)
    · refine ⟨dictInsert new ".id" (mtStrN (k + 1)) :: rest, ?_, ?_⟩
      · rw [if_pos hvid]
      · rw [wf_from_cons]
        exact ⟨getv_dictInsert_self new ".id" (mtStrN (k + 1)), hwf.2⟩
    · obtain ⟨rest', hr1, hr2⟩ := ih (k + 1) id new hwf.2
      refine ⟨it :: rest', ?_, ?_⟩
      · rw [if_neg hvid, hr1]
      · rw [wf_from_cons]
        exact ⟨hwf.1, hr2⟩

/-! ## The scan of `Imagined.move` on well-formed states -/

theorem scan_ids_append {a : List Item} {sn dn : String} {k : Nat}
    {acc acc' : Option Nat × Option Nat} (b : List Item)
    (ha : Imagined.scan_ids a sn dn k acc = .ok acc') :
    Imagined.scan_ids (a ++ b) sn dn k acc =
      Imagined.scan_ids b sn dn (k + a.length) acc' := by
  induction a generalizing k acc with
  | nil =>
    cases ha
    simp
  | cons it rest ih =>
    rw [Imagined.scan_ids] at ha
    rw [List.cons_append, Imagined.scan_ids]
    cases hit : idOf it with
    | error e => rw [hit] at ha; exact Except.noConfusion ha
    | ok v =>
      rw [hit] at ha
      rw [List.length_cons, show k + (rest.length + 1) = k + 1 + rest.length by omega]
      exact ih ha

/-- A well-formed segment whose canonical ids all differ from both scan
targets leaves the accumulator unchanged. -/
theorem scan_ids_skip {s : List Item} {k : Nat} {sn dn : String}
    (hwf : wf_from k s = true)
    (hs : ∀ m, k < m → m ≤ k + s.length → sn ≠ mtStrN m ∧ dn ≠ mtStrN m) :
    ∀ acc, Imagined.scan_ids s sn dn k acc = .ok acc := by
  induction s generalizing k with
  | nil => intro acc; rfl
  | cons it rest ih =>
    intro acc
    rw [wf_from_cons] at hwf
    rw [Imagined.scan_ids]
    simp only [idOf_ok hwf.1]
    have hm := hs (k + 1) (by omega) (by rw [List.length_cons]; omega)
    rw [if_neg (fun hc => hm.1 hc.symm), if_neg (fun hc => hm.2 hc.symm)]
    exact ih hwf.2
      (fun m h1 h2 => hs m (by omega) (by rw [List.length_cons]; omega)) acc

theorem scan_ids_cons {it : Item} {v : String} (rest : List Item)
    (sn dn : String) (k : Nat) (acc : Option Nat × Option Nat)
    (hv : getv it ".id" = some v) :
    Imagined.scan_ids (it :: rest) sn dn k acc =
      Imagined.scan_ids rest sn dn (k + 1)
        (if v = sn then some k else acc.1,
         if v = dn then some k else acc.2) := by
  rw [Imagined.scan_ids]
  simp only [idOf_ok hv]

/-! ## `Imagined.move` on well-formed states -/

theorem move_hit (A : List Item) (x : Item) (B : List Item) (y : Item)
    (C : List Item) (number destination : MtV)
    (hwf : WF (A ++ x :: (B ++ y :: C)))
    (hsS : mt_str number = mtStrN (A.length + B.length + 2))
    (hiS : mt_int number = some ((A.length : Int) + B.length + 2))
    (hsD : mt_str destination = mtStrN (A.length + 1))
    (hiD : mt_int destination = some ((A.length : Int) + 1)) :
    Imagined.move (A ++ x :: (B ++ y :: C)) number destination =
      .ok (A ++ dictInsert y ".id" (mt_str destination) ::
        (re_id (A.length + 2) (x :: B) ++ C)) := by
  rw [WF, wf_from_append] at hwf
  obtain ⟨hA, hrest⟩ := hwf
  rw [Nat.zero_add, wf_from_cons] at hrest
  obtain ⟨hx, hrest⟩ := hrest
  rw [wf_from_append] at hrest
  obtain ⟨hB, hyC⟩ := hrest
  have hyCcons := hyC
  rw [wf_from_cons] at hyCcons
  obtain ⟨hy, hC⟩ := hyCcons
  -- the scan finds the source at position |A|+1+|B| and the destination at |A|
  have hscan : Imagined.scan_ids (A ++ x :: (B ++ y :: C)) (mt_str number)
      (mt_str destination) 0 (none, none) =
        .ok (some (A.length + 1 + B.length), some A.length) := by
    rw [hsS, hsD]
    have h1 : Imagined.scan_ids A (mtStrN (A.length + B.length + 2))
        (mtStrN (A.length + 1)) 0 (none, none) = .ok (none, none) :=
      scan_ids_skip hA (fun m hm1 hm2 =>
        ⟨fun hc => by have := mtStrN_inj hc; omega,
         fun hc => by have := mtStrN_inj hc; omega⟩) (none, none)
    rw [scan_ids_append (x :: (B ++ y :: C)) h1, Nat.zero_add]
    rw [scan_ids_cons (B ++ y :: C) _ _ A.length (none, none) hx]
    rw [if_neg (fun hc => by have := mtStrN_inj hc; omega), if_pos rfl]
    have h2 : Imagined.scan_ids B (mtStrN (A.length + B.length + 2))
        (mtStrN (A.length + 1)) (A.length + 1) (none, some A.length) =
          .ok (none, some A.length) :=
      scan_ids_skip hB (fun m hm1 hm2 =>
        ⟨fun hc => by have := mtStrN_inj hc; omega,
         fun hc => by have := mtStrN_inj hc; omega⟩) (none, some A.length)
    rw [scan_ids_append (y :: C) h2]
    rw [scan_ids_cons C _ _ (A.length + 1 + B.length) (none, some A.length)
      (show getv y ".id" = some (mtStrN (A.length + 1 + B.length + 1)) from hy)]
    rw [if_pos (by rw [show A.length + 1 + B.length + 1 =
          A.length + B.length + 2 from by omega]),
        if_neg (fun hc => by have := mtStrN_inj hc; omega)]
    exact scan_ids_skip hC (fun m hm1 hm2 =>
      ⟨fun hc => by have := mtStrN_inj hc; omega,
       fun hc => by have := mtStrN_inj hc; omega⟩) _
  -- `_move_all_between` shifts the [destination, source) zone up by one
  have hxB : wf_from A.length (x :: B) = true := by
    rw [wf_from_cons]
    exact ⟨hx, hB⟩
  have hmabA : Imagined.move_all_between A (some destination) (some number) 1 =
      .ok A :=
    mab_list_below hA hiD (by push_cast; omega) (some number) 1
  have hmabXB : Imagined.move_all_between (x :: B) (some destination)
      (some number) 1 = .ok (re_id (A.length + 2) (x :: B)) :=
    mab_list_shift_up hxB hiD hiS (by omega)
      (by rw [List.length_cons]; push_cast; omega)
  have hmabYC : Imagined.move_all_between (y :: C) (some destination)
      (some number) 1 = .ok (y :: C) :=
    mab_list_above hyC hiD hiS (by push_cast; omega) (by omega) 1
  have hmab : Imagined.move_all_between (A ++ x :: (B ++ y :: C))
      (some destination) (some number) 1 =
        .ok (A ++ (re_id (A.length + 2) (x :: B) ++ y :: C)) :=
    mab_list_append hmabA (mab_list_append hmabXB hmabYC)
  -- the source item is read at its (shifted) position
  have hget1 : (A ++ (re_id (A.length + 2) (x :: B) ++ y :: C)).get?
      (A.length + 1 + B.length) = some y := by
    rw [← List.append_assoc]
    have hlen : (A ++ re_id (A.length + 2) (x :: B)).length =
        A.length + 1 + B.length := by
      rw [List.length_append, re_id_length, List.length_cons]
      omega
    rw [← hlen]
    exact getq_len (A ++ re_id (A.length + 2) (x :: B)) y C
  -- insert at the destination position, erase the old occurrence
  have hins : listInsertAt A.length y
      (A ++ (re_id (A.length + 2) (x :: B) ++ y :: C)) =
        A ++ y :: (re_id (A.length + 2) (x :: B) ++ y :: C) :=
    listInsertAt_len A y _
  have hera : (A ++ y :: (re_id (A.length + 2) (x :: B) ++ y :: C)).eraseIdx
      (A.length + 1 + B.length + 1) =
        A ++ y :: (re_id (A.length + 2) (x :: B) ++ C) := by
    have hsplit : A ++ y :: (re_id (A.length + 2) (x :: B) ++ y :: C) =
        (A ++ y :: re_id (A.length + 2) (x :: B)) ++ y :: C := by
      simp
    rw [hsplit]
    have hlen : (A ++ y :: re_id (A.length + 2) (x :: B)).length =
        A.length + 1 + B.length + 1 := by
      rw [List.length_append, List.length_cons, re_id_length,
        List.length_cons]
      omega
    rw [← hlen, eraseIdx_len]
    simp
  have hget2 : (A ++ y :: (re_id (A.length + 2) (x :: B) ++ C)).get?
      A.length = some y :=
    getq_len A y _
  have hset : (A ++ y :: (re_id (A.length + 2) (x :: B) ++ C)).set A.length
      (dictInsert y ".id" (mt_str destination)) =
        A ++ dictInsert y ".id" (mt_str destination) ::
          (re_id (A.length + 2) (x :: B) ++ C) :=
    set_len A y _ _
  simp only [Imagined.move, hscan, hmab, hget1, hins, hera, hget2, hset]

theorem scan_ids_none_dst (sn dn : String) :
    ∀ (state : List Item) (k : Nat) (acc1 : Option Nat),
    (∀ it ∈ state, ∃ v, getv it ".id" = some v ∧ v ≠ dn) →
    ∃ r, Imagined.scan_ids state sn dn k (acc1, none) = .ok (r, none) := by
  intro state
  induction state with
  | nil => intro k acc1 _; exact ⟨acc1, rfl⟩
  | cons it rest ih =>
    intro k acc1 habs
    obtain ⟨v, hv, hne⟩ := habs it (List.mem_cons_self _ _)
    simp only [Imagined.scan_ids, idOf_ok hv]
    rw [if_neg hne]
    exact ih (k + 1) _ (fun x hx => habs x (List.mem_cons_of_mem _ hx))

/-! ## Claim C6: move on well-formed states -/

/-- **C6 (counterexample to the claim as stated).** On a state that is not
in id order, `move` relies on the source item sitting *after* the
destination item; with ids `[3, 1]`, `move(3, 1)` returns the state
unchanged instead of moving the source to the destination position. -/
theorem claim_C6_counterexample :
    Imagined.move [[(".id", "3")], [(".id", "1")]] (.s "3") (.s "1") =
      .ok [[(".id", "3")], [(".id", "1")]] := rfl

/-- **C6 (amended).** On a *well-formed* imagined list, `move(s, d)` with
`s > d` and both present increments by one the id of every item in
`[d, s)`, reinserts the source item at the destination position with id
`d`, and leaves everything else unchanged; `move` with an absent source or
destination id raises. -/
theorem claim_C6_amended_move :
    (∀ (A : List Item) (x : Item) (B : List Item) (y : Item) (C : List Item),
      WF (A ++ x :: (B ++ y :: C)) →
      Imagined.move (A ++ x :: (B ++ y :: C))
          (.s (mtStrN (A.length + B.length + 2))) (.s (mtStrN (A.length + 1))) =
        .ok (A ++ dictInsert y ".id" (mtStrN (A.length + 1)) ::
          (re_id (A.length + 2) (x :: B) ++ C))) ∧
    (∀ (s : List Item) (n d : MtV),
      (∀ it ∈ s, ∃ v, getv it ".id" = some v ∧ v ≠ mt_str n) →
      Imagined.move s n d =
        .error "Unable to find either source id or destination id") ∧
    (∀ (s : List Item) (n d : MtV),
      (∀ it ∈ s, ∃ v, getv it ".id" = some v ∧ v ≠ mt_str d) →
      Imagined.move s n d =
        .error "Unable to find either source id or destination id") := by
  refine ⟨?_, ?_, ?_⟩
  · intro A x B y C hwf
    have h := move_hit A x B y C (.s (mtStrN (A.length + B.length + 2)))
      (.s (mtStrN (A.length + 1))) hwf (mt_str_s _)
      (by rw [mt_int_mtStrN]; push_cast; ring_nf)
      (mt_str_s _) (by rw [mt_int_mtStrN]; push_cast; ring_nf)
    rw [mt_str_s] at h
    exact h
  · intro s n d habs
    obtain ⟨r, hr⟩ := scan_ids_none_src (mt_str n) (mt_str d) s 0 none habs
    simp only [Imagined.move, hr]
  · intro s n d habs
    obtain ⟨r, hr⟩ := scan_ids_none_dst (mt_str n) (mt_str d) s 0 none habs
    rcases r with - | j <;> simp only [Imagined.move, hr]

/-- Witness for C6 (amended): the spec's own move scenario, and a raise on
an absent source. -/
theorem claim_C6_amended_move_witness :
    (Imagined.move
        [[(".id", "1"), ("k", "a")], [(".id", "2"), ("k", "b")],
         [(".id", "3"), ("k", "c")]] (.s "3") (.s "2") =
      .ok [[(".id", "1"), ("k", "a")], [(".id", "2"), ("k", "c")],
           [(".id", "3"), ("k", "b")]]) ∧
    (Imagined.move [[(".id", "1")]] (.s "7") (.s "1") =
      .error "Unable to find either source id or destination id") := by
  constructor
  · exact claim_C6_amended_move.1 [[(".id", "1"), ("k", "a")]]
      [(".id", "2"), ("k", "b")] [] [(".id", "3"), ("k", "c")] [] (by decide)
  · exact claim_C6_amended_move.2.1 [[(".id", "1")]] (.s "7") (.s "1")
      (by intro it h; rw [List.mem_singleton] at h; subst h
          exact ⟨"1", rfl, by decide⟩)

/-! ## Positional decompositions of well-formed states -/

theorem decomp_one (s : List Item) (i : Nat) (h : i < s.length) :
    s = s.take i ++ s[i] :: s.drop (i + 1) ∧ (s.take i).length = i := by
  constructor
  · rw [List.getElem_cons_drop s i h, List.take_append_drop]
  · rw [List.length_take]
    omega

theorem decomp_two (s : List Item) (i j : Nat) (hij : i < j)
    (hj : j < s.length) :
    s = s.take i ++ s[i] ::
        ((s.drop (i + 1)).take (j - i - 1) ++ s[j] :: s.drop (j + 1)) ∧
    (s.take i).length = i ∧
    ((s.drop (i + 1)).take (j - i - 1)).length = j - i - 1 := by
  have hi : i < s.length := by omega
  refine ⟨?_, by rw [List.length_take]; omega,
    by rw [List.length_take, List.length_drop]; omega⟩
  have h2 : (s.drop (i + 1)).take (j - i - 1) ++ s[j] :: s.drop (j + 1) =
      s.drop (i + 1) := by
    have h3 := List.take_append_drop (j - i - 1) (s.drop (i + 1))
    rw [List.drop_drop, show i + 1 + (j - i - 1) = j from by omega] at h3
    rw [List.getElem_cons_drop s j hj]
    exact h3
  rw [h2, List.getElem_cons_drop s i hi, List.take_append_drop]

/-- On a well-formed state, `append` appends the item with id `n + 1`. -/
theorem append_wf_nonempty (s : List Item) (item : Item) (hwf : WF s)
    (hne : s ≠ []) :
    Imagined.append s item =
      .ok (s ++ [dictInsert item ".id" (mtStrN (s.length + 1))]) := by
  rw [Imagined.append, max_id_wf s hwf hne]
  show Except.ok (s ++ [dictInsert item ".id"
    (mt_str (.i ((s.length : Int) + 1)))]) = _
  rw [show ((s.length : Int) + 1) = ((s.length + 1 : Nat) : Int) from by
    push_cast; ring, mt_str_ofNat]

/-! ## Claim C3: the compact-id invariant -/

/-- **C3 (counterexample to the claim as stated).** The empty state
satisfies the invariant (ids = {1..0} = {}), but `append` on it assigns id
2 (the `_max_id` fold starts at 1), so the resulting singleton state has
ids {2} ≠ {1}. -/
theorem claim_C3_counterexample :
    Imagined.append [] [] = .ok [[(".id", "2")]] ∧
    ¬ ([[(".id", "2")]].map (fun it => getv it ".id") =
        (List.range' 1 1).map (fun m => some (mtStrN m))) :=
  ⟨rfl, by decide⟩

/-- **C3 (amended).** Strengthen the invariant to the sorted compact
layout `WF` (position `i` carries id `i + 1`) — which implies that the ids
are exactly `1, …, n` — and restrict the operations to those the
reconciler performs: arbitrary `update`, `append` on a non-empty state,
arbitrary `delete`, and `move(s, d)` with `s > d` and both ids present.
Each such operation returns normally and preserves `WF`. -/
theorem claim_C3_amended_invariant :
    (∀ s : List Item, WF s →
      s.map (fun it => getv it ".id") =
        (List.range' 1 s.length).map (fun m => some (mtStrN m))) ∧
    (∀ (s : List Item) (id : String) (new : Item), WF s →
      ∃ s', Imagined.update s id new = .ok s' ∧ WF s') ∧
    (∀ (s : List Item) (item : Item), WF s → s ≠ [] →
      ∃ s', Imagined.append s item = .ok s' ∧ WF s') ∧
    (∀ (s : List Item) (id : MtV), WF s →
      ∃ s', Imagined.delete s id = .ok s' ∧ WF s') ∧
    (∀ (s : List Item) (dN sN : Nat), WF s → 1 ≤ dN → dN < sN →
      sN ≤ s.length →
      ∃ s', Imagined.move s (.s (mtStrN sN)) (.s (mtStrN dN)) = .ok s' ∧
        WF s') := by
  refine ⟨?_, ?_, ?_, ?_, ?_⟩
  · -- ids are exactly 1..n, in order
    have hgen : ∀ (s : List Item) (k : Nat), wf_from k s = true →
        s.map (fun it => getv it ".id") =
          (List.range' (k + 1) s.length).map (fun m => some (mtStrN m)) := by
      intro s
      induction s with
      | nil => intro k _; rfl
      | cons it rest ih =>
        intro k hwf
        rw [wf_from_cons] at hwf
        rw [List.map_cons, List.length_cons, List.range'_succ, List.map_cons,
          hwf.1, ih (k + 1) hwf.2]
    intro s hwf
    exact hgen s 0 hwf
  · -- update preserves WF
    intro s id new hwf
    exact update_wf s 0 id new hwf
  · -- append on a non-empty state preserves WF
    intro s item hwf hne
    refine ⟨s ++ [dictInsert item ".id" (mtStrN (s.length + 1))],
      append_wf_nonempty s item hwf hne, ?_⟩
    rw [WF, wf_from_append]
    refine ⟨hwf, ?_⟩
    rw [Nat.zero_add, wf_from_cons]
    exact ⟨getv_dictInsert_self item ".id" (mtStrN (s.length + 1)), rfl⟩
  · -- delete (of any id) preserves WF
    intro s id hwf
    by_cases hex : ∃ m, m < s.length ∧ mt_str id = mtStrN (m + 1)
    · obtain ⟨m, hm, hid⟩ := hex
      obtain ⟨hdec, hlen⟩ := decomp_one s m hm
      rw [hdec] at hwf ⊢
      have hdel := delete_hit (s.take m) s[m] (s.drop (m + 1)) id hwf
        (by rw [hlen]; exact hid)
      rw [hlen] at hdel
      refine ⟨s.take m ++ re_id (m + 1) (s.drop (m + 1)), hdel, ?_⟩
      rw [WF, wf_from_append] at hwf ⊢
      obtain ⟨hA, hxB⟩ := hwf
      refine ⟨hA, ?_⟩
      rw [Nat.zero_add, hlen]
      exact wf_from_re_id m _
    · push_neg at hex
      have hmiss := find_id_idx_wf_miss s 0 (mt_str id) hwf
        (fun m h1 h2 hc => by
          have := hex (m - 1) (by omega)
          rw [show m - 1 + 1 = m from by omega] at this
          exact this hc)
      refine ⟨s, ?_, hwf⟩
      simp only [Imagined.delete, hmiss]
  · -- move down (source above destination, both present) preserves WF
    intro s dN sN hwf hd hds hsl
    obtain ⟨hdec, hlenA, hlenB⟩ := decomp_two s (dN - 1) (sN - 1)
      (by omega) (by omega)
    set A := s.take (dN - 1) with hA_def
    set x := s[dN - 1] with hx_def
    set B := (s.drop (dN - 1 + 1)).take (sN - 1 - (dN - 1) - 1) with hB_def
    set y := s[sN - 1] with hy_def
    set C := s.drop (sN - 1 + 1) with hC_def
    rw [hdec] at hwf ⊢
    have hsS : mt_str (MtV.s (mtStrN sN)) = mtStrN (A.length + B.length + 2) := by
      rw [mt_str_s, hlenA, hlenB]
      congr 1
      omega
    have hiS : mt_int (MtV.s (mtStrN sN)) =
        some ((A.length : Int) + B.length + 2) := by
      rw [mt_int_mtStrN, hlenA, hlenB]
      congr 1
      omega
    have hsD : mt_str (MtV.s (mtStrN dN)) = mtStrN (A.length + 1) := by
      rw [mt_str_s, hlenA]
      congr 1
      omega
    have hiD : mt_int (MtV.s (mtStrN dN)) = some ((A.length : Int) + 1) := by
      rw [mt_int_mtStrN, hlenA]
      congr 1
      omega
    have hmv := move_hit A x B y C (.s (mtStrN sN)) (.s (mtStrN dN)) hwf
      hsS hiS hsD hiD
    refine ⟨_, hmv, ?_⟩
    rw [WF, wf_from_append] at hwf ⊢
    obtain ⟨hA, hrest⟩ := hwf
    rw [Nat.zero_add, wf_from_cons] at hrest
    obtain ⟨hx, hrest⟩ := hrest
    rw [wf_from_append] at hrest
    obtain ⟨hB, hyC⟩ := hrest
    rw [wf_from_cons] at hyC
    obtain ⟨hy, hC⟩ := hyC
    refine ⟨hA, ?_⟩
    rw [Nat.zero_add, wf_from_cons]
    rw [mt_str_s] at hsD
    constructor
    · rw [hsD]
      exact getv_dictInsert_self y ".id" (mtStrN (A.length + 1))
    · rw [wf_from_append]
      refine ⟨wf_from_re_id (A.length + 1) (x :: B), ?_⟩
      rw [re_id_length, List.length_cons,
        show A.length + 1 + (B.length + 1) = A.length + 1 + B.length + 1
          from by omega]
      exact hC

/-- Witness for C3 (amended), exercising every operation on small
well-formed states. -/
theorem claim_C3_amended_invariant_witness :
    ([[(".id", "1")], [(".id", "2")]].map (fun it => getv it ".id") =
      (List.range' 1 2).map (fun m => some (mtStrN m))) ∧
    (∃ s', Imagined.update [[(".id", "1")]] "1" [("k", "v")] = .ok s' ∧
      WF s') ∧
    (∃ s', Imagined.append [[(".id", "1")]] [("k", "v")] = .ok s' ∧
      WF s') ∧
    (∃ s', Imagined.delete [[(".id", "1")], [(".id", "2")]] (.s "1") =
      .ok s' ∧ WF s') ∧
    (∃ s', Imagined.move [[(".id", "1")], [(".id", "2")]] (.s (mtStrN 2))
      (.s (mtStrN 1)) = .ok s' ∧ WF s') :=
  ⟨claim_C3_amended_invariant.1 [[(".id", "1")], [(".id", "2")]] (by decide),
   claim_C3_amended_invariant.2.1 [[(".id", "1")]] "1" [("k", "v")]
     (by decide),
   claim_C3_amended_invariant.2.2.1 [[(".id", "1")]] [("k", "v")] (by decide)
     (by decide),
   claim_C3_amended_invariant.2.2.2.1 [[(".id", "1")], [(".id", "2")]]
     (.s "1") (by decide),
   claim_C3_amended_invariant.2.2.2.2 [[(".id", "1")], [(".id", "2")]] 1 2
     (by decide) (by decide) (by decide) (by decide)⟩

/-! ## Canonical cores: sortedness, permutation, extensionality -/

theorem insKey_perm (p : String × String) (l : Item) :
    (insKey p l).Perm (p :: l) := by
  induction l with
  | nil => exact List.Perm.refl _
  | cons q r ih =>
    rw [insKey]
    by_cases h : p.1 ≤ q.1
    · rw [if_pos h]
    · rw [if_neg h]
      exact (ih.cons q).trans (List.Perm.swap p q r)

theorem sortKeys_perm (l : Item) : (sortKeys l).Perm l := by
  induction l with
  | nil => exact List.Perm.refl _
  | cons p r ih =>
    rw [sortKeys]
    exact (insKey_perm p (sortKeys r)).trans (ih.cons p)

theorem pairwise_insKey {p : String × String} {l : Item}
    (h : l.Pairwise (fun u v => u.1 ≤ v.1)) :
    (insKey p l).Pairwise (fun u v => u.1 ≤ v.1) := by
  induction l with
  | nil => simp [insKey]
  | cons q r ih =>
    rw [insKey]
    rw [List.pairwise_cons] at h
    by_cases hpq : p.1 ≤ q.1
    · rw [if_pos hpq]
      rw [List.pairwise_cons]
      refine ⟨?_, List.pairwise_cons.mpr h⟩
      intro x hx
      rcases List.mem_cons.mp hx with h1 | h2
      · subst h1; exact hpq
      · exact le_trans hpq (h.1 x h2)
    · rw [if_neg hpq]
      rw [List.pairwise_cons]
      refine ⟨?_, ih h.2⟩
      intro x hx
      have hx' := (insKey_perm p r).mem_iff.mp hx
      rcases List.mem_cons.mp hx' with h1 | h2
      · subst h1; exact le_of_not_le hpq
      · exact h.1 x h2

theorem pairwise_sortKeys (l : Item) :
    (sortKeys l).Pairwise (fun u v => u.1 ≤ v.1) := by
  induction l with
  | nil => exact List.Pairwise.nil
  | cons p r ih => exact pairwise_insKey ih

theorem nodupKeys_perm {l l' : Item} (h : l.Perm l') (hnd : NodupKeys l) :
    NodupKeys l' :=
  ((h.map Prod.fst).nodup_iff).mp hnd

theorem getv_perm {l l' : Item} (hnd : NodupKeys l) (h : l.Perm l')
    (k : String) : getv l k = getv l' k := by
  cases hg : getv l k with
  | some v =>
    exact (getv_eq_some_of_mem (nodupKeys_perm h hnd)
      (h.mem_iff.mp (mem_of_getv_eq_some hg))).symm
  | none =>
    cases hg' : getv l' k with
    | none => rfl
    | some w =>
      have := getv_eq_none_iff.mp hg w
      exact absurd (h.mem_iff.mpr (mem_of_getv_eq_some hg')) this

theorem getv_coreFilter (a : Item) (k : String) (hk : k ≠ ".id") :
    getv (coreFilter a) k = getv a k := by
  induction a with
  | nil => rfl
  | cons p r ih =>
    obtain ⟨x, y⟩ := p
    rw [coreFilter, List.filter_cons]
    by_cases hx : x = ".id"
    · rw [if_neg (by simp [hx])]
      rw [getv_cons, if_neg (by rw [hx]; exact fun h => hk h.symm)]
      exact ih
    · rw [if_pos (by simp [hx])]
      rw [getv_cons, getv_cons]
      by_cases hxk : x = k
      · simp [hxk]
      · rw [if_neg hxk, if_neg hxk]
        exact ih

theorem getv_coreFilter_id (a : Item) : getv (coreFilter a) ".id" = none := by
  rw [getv_eq_none_iff]
  intro v hv
  have := List.of_mem_filter hv
  simp at this

theorem nodupKeys_coreFilter {a : Item} (hnd : NodupKeys a) :
    NodupKeys (coreFilter a) :=
  ((List.filter_sublist a).map Prod.fst).nodup hnd

theorem nodupKeys_canon {a : Item} (hnd : NodupKeys a) :
    NodupKeys (canon a) :=
  nodupKeys_perm (sortKeys_perm (coreFilter a)).symm (nodupKeys_coreFilter hnd)

theorem canon_getv (a : Item) (hnd : NodupKeys a) (k : String) :
    getv (canon a) k = if k = ".id" then none else getv a k := by
  rw [canon]
  rw [getv_perm (nodupKeys_coreFilter hnd)
    (sortKeys_perm (coreFilter a)).symm k |>.symm]
  by_cases hk : k = ".id"
  · rw [if_pos hk, hk, getv_coreFilter_id]
  · rw [if_neg hk, getv_coreFilter a k hk]

theorem canon_length (a : Item) : (canon a).length = (coreFilter a).length :=
  (sortKeys_perm (coreFilter a)).length_eq

/-- Key-sorted association lists with duplicate-free keys are determined
by their lookup function. -/
theorem sorted_nodup_getv_ext :
    ∀ (a b : Item), a.Pairwise (fun u v => u.1 ≤ v.1) →
    b.Pairwise (fun u v => u.1 ≤ v.1) → NodupKeys a → NodupKeys b →
    (∀ k, getv a k = getv b k) → a = b := by
  intro a
  induction a with
  | nil =>
    intro b _ _ _ _ hget
    cases b with
    | nil => rfl
    | cons q rb =>
      obtain ⟨k2, v2⟩ := q
      have := hget k2
      rw [getv_nil, getv_cons, if_pos rfl] at this
      exact Option.noConfusion this
  | cons p ra ih =>
    intro b hpa hpb hna hnb hget
    obtain ⟨k1, v1⟩ := p
    cases b with
    | nil =>
      have := hget k1
      rw [getv_nil, getv_cons, if_pos rfl] at this
      exact Option.noConfusion this
    | cons q rb =>
      obtain ⟨k2, v2⟩ := q
      have h1b : getv ((k2, v2) :: rb) k1 = some v1 := by
        rw [← hget k1, getv_cons, if_pos rfl]
      have h2a : getv ((k1, v1) :: ra) k2 = some v2 := by
        rw [hget k2, getv_cons, if_pos rfl]
      have hm1 : (k1, v1) ∈ (k2, v2) :: rb := mem_of_getv_eq_some h1b
      have hm2 : (k2, v2) ∈ (k1, v1) :: ra := mem_of_getv_eq_some h2a
      rw [List.pairwise_cons] at hpa hpb
      have hk12 : k1 = k2 := by
        have hle1 : k1 ≤ k2 := by
          rcases List.mem_cons.mp hm2 with h | h
          · exact le_of_eq (congrArg Prod.fst h).symm
          · exact hpa.1 _ h
        have hle2 : k2 ≤ k1 := by
          rcases List.mem_cons.mp hm1 with h | h
          · exact le_of_eq (congrArg Prod.fst h).symm
          · exact hpb.1 _ h
        exact le_antisymm hle1 hle2
      subst hk12
      have hv12 : v1 = v2 := by
        rw [getv_cons, if_pos rfl] at h1b
        exact (Option.some.inj h1b).symm
      subst hv12
      have hta := nodupKeys_cons hna
      have htb := nodupKeys_cons hnb
      have hget' : ∀ k, getv ra k = getv rb k := by
        intro k
        by_cases hk : k1 = k
        · subst hk
          rw [getv_eq_none_iff.mpr hta.1, getv_eq_none_iff.mpr htb.1]
        · have := hget k
          rw [getv_cons, getv_cons, if_neg hk, if_neg hk] at this
          exact this
      rw [ih rb hpa.2 hpb.2 hta.2 htb.2 hget']

theorem CoreEq.symm {a b : Item} (h : CoreEq a b) : CoreEq b a :=
  fun k hk => (h k hk).symm

theorem coreEq_of_mapEq {a b : Item} (h : MapEq a b) : CoreEq a b :=
  fun k _ => h k

theorem canon_eq_iff {a b : Item} (ha : NodupKeys a) (hb : NodupKeys b) :
    canon a = canon b ↔ CoreEq a b := by
  constructor
  · intro h k hk
    have h1 := canon_getv a ha k
    have h2 := canon_getv b hb k
    rw [if_neg hk] at h1 h2
    rw [← h1, ← h2, h]
  · intro h
    refine sorted_nodup_getv_ext (canon a) (canon b)
      (pairwise_sortKeys _) (pairwise_sortKeys _)
      (nodupKeys_canon ha) (nodupKeys_canon hb) ?_
    intro k
    rw [canon_getv a ha k, canon_getv b hb k]
    by_cases hk : k = ".id"
    · rw [if_pos hk, if_pos hk]
    · rw [if_neg hk, if_neg hk, h k hk]

/-! ## Score bounds and the score of core-equal items -/

theorem score_items_def (a b : Item) :
    score_items a b = if a.length > b.length then score_count b a
      else score_count a b := by
  rw [score_items]
  by_cases h : a.length > b.length
  · rw [if_pos h, if_pos h]
    rfl
  · rw [if_neg h, if_neg h]
    rfl

theorem length_filter_and_le {α : Type} (P Q : α → Bool) (l : List α) :
    (l.filter (fun a => P a && Q a)).length ≤ (l.filter P).length := by
  induction l with
  | nil => exact le_refl _
  | cons a t ih =>
    rw [List.filter_cons, List.filter_cons]
    cases hP : P a <;> cases hQ : Q a <;>
      simp only [Bool.and_self, Bool.and_true, Bool.and_false,
        Bool.false_eq_true, if_false, if_true, List.length_cons] <;>
      omega

theorem score_count_le_left (x y : Item) :
    score_count x y ≤ (coreFilter x).length := by
  rw [score_count, coreFilter]
  exact length_filter_and_le (fun kv => kv.1 != ".id")
    (fun kv => getv y kv.1 == some kv.2) x

theorem score_count_le_right (x y : Item) (hx : NodupKeys x) :
    score_count x y ≤ (coreFilter y).length := by
  classical
  set P := fun kv : String × String =>
    kv.1 != ".id" && (getv y kv.1 == some kv.2) with hP
  have hKnodup : ((x.filter P).map Prod.fst).Nodup :=
    ((List.filter_sublist x).map Prod.fst).nodup hx
  have hsub : ((x.filter P).map Prod.fst) ⊆ ((coreFilter y).map Prod.fst) := by
    intro k hk
    rw [List.mem_map] at hk
    obtain ⟨kv, hkv, rfl⟩ := hk
    have hmem := List.of_mem_filter hkv
    rw [hP] at hmem
    simp only [Bool.and_eq_true, bne_iff_ne, beq_iff_eq] at hmem
    have hky : (kv.1, kv.2) ∈ y := mem_of_getv_eq_some hmem.2
    rw [List.mem_map]
    exact ⟨(kv.1, kv.2), List.mem_filter.mpr ⟨hky, by simp [hmem.1]⟩, rfl⟩
  have hcard : ((x.filter P).map Prod.fst).toFinset.card ≤
      ((coreFilter y).map Prod.fst).toFinset.card :=
    Finset.card_le_card (fun k hk =>
      List.mem_toFinset.mpr (hsub (List.mem_toFinset.mp hk)))
  rw [List.toFinset_card_of_nodup hKnodup] at hcard
  calc score_count x y = ((x.filter P).map Prod.fst).length := by
        rw [score_count, List.length_map]
    _ ≤ ((coreFilter y).map Prod.fst).toFinset.card := hcard
    _ ≤ ((coreFilter y).map Prod.fst).length := List.toFinset_card_le _
    _ = (coreFilter y).length := List.length_map _ _

theorem score_count_of_coreEq (x y : Item) (hx : NodupKeys x)
    (hcore : CoreEq x y) : score_count x y = (coreFilter x).length := by
  rw [score_count, coreFilter]
  congr 1
  apply List.filter_congr
  rintro ⟨k, v⟩ hkv
  by_cases hk : k = ".id"
  · simp [hk]
  · have hgx : getv x k = some v := getv_eq_some_of_mem hx hkv
    have hgy : getv y k = some v := by rw [← hcore k hk]; exact hgx
    simp [hk, hgy]

theorem coreSize_eq_of_coreEq {a b : Item} (ha : NodupKeys a)
    (hb : NodupKeys b) (h : CoreEq a b) :
    (coreFilter a).length = (coreFilter b).length := by
  rw [← canon_length, ← canon_length, (canon_eq_iff ha hb).mpr h]

theorem score_items_of_coreEq (a b : Item) (ha : NodupKeys a)
    (hb : NodupKeys b) (h : CoreEq a b) :
    score_items a b = (coreFilter a).length := by
  rw [score_items_def]
  by_cases hlen : a.length > b.length
  · rw [if_pos hlen, score_count_of_coreEq b a hb h.symm,
      coreSize_eq_of_coreEq hb ha h.symm]
  · rw [if_neg hlen, score_count_of_coreEq a b ha h]

theorem score_items_le (a b : Item) (ha : NodupKeys a) (hb : NodupKeys b) :
    score_items a b ≤ (coreFilter a).length ∧
    score_items a b ≤ (coreFilter b).length := by
  rw [score_items_def]
  by_cases hlen : a.length > b.length
  · rw [if_pos hlen]
    exact ⟨score_count_le_right b a hb, score_count_le_left b a⟩
  · rw [if_neg hlen]
    exact ⟨score_count_le_left a b, score_count_le_right a b ha⟩

theorem filter_and_sublist {α : Type} (P Q : α → Bool) (l : List α) :
    (l.filter (fun a => P a && Q a)).Sublist (l.filter P) := by
  induction l with
  | nil => exact List.Sublist.refl _
  | cons a t ih =>
    rw [List.filter_cons, List.filter_cons]
    cases hP : P a <;> cases hQ : Q a <;>
      simp only [Bool.and_self, Bool.and_true, Bool.and_false,
        Bool.false_eq_true, if_false, if_true]
    · exact ih
    · exact ih
    · exact ih.cons _
    · exact ih.cons₂ _

/-- A full directed match with equal core sizes forces core equality. -/
theorem coreEq_of_score_count_full (x y : Item) (hx : NodupKeys x)
    (hy : NodupKeys y) (hfull : score_count x y = (coreFilter x).length)
    (hsize : (coreFilter x).length = (coreFilter y).length) :
    CoreEq x y := by
  classical
  have hsubl := filter_and_sublist (fun kv : String × String => kv.1 != ".id")
    (fun kv : String × String => getv y kv.1 == some kv.2) x
  have heq : x.filter (fun kv =>
      (kv.1 != ".id") && (getv y kv.1 == some kv.2)) =
      x.filter (fun kv => kv.1 != ".id") :=
    hsubl.eq_of_length (by rw [← score_count]; exact hfull)
  have hall : ∀ kv ∈ x.filter (fun kv : String × String => kv.1 != ".id"),
      (getv y kv.1 == some kv.2) = true := by
    intro kv hkv
    rw [← heq] at hkv
    have := List.of_mem_filter hkv
    exact (Bool.and_eq_true .. ▸ this).2
  -- every core entry of x is a core entry of y
  have hdir : ∀ k v, k ≠ ".id" → getv x k = some v → getv y k = some v := by
    intro k v hk hg
    have hmem : (k, v) ∈ x.filter (fun kv : String × String => kv.1 != ".id") :=
      List.mem_filter.mpr ⟨mem_of_getv_eq_some hg, by simp [hk]⟩
    have := hall (k, v) hmem
    rwa [beq_iff_eq] at this
  -- the key sets coincide (same cardinality)
  have hkeysub : ((coreFilter x).map Prod.fst).toFinset ⊆
      ((coreFilter y).map Prod.fst).toFinset := by
    intro k hk
    rw [List.mem_toFinset, List.mem_map] at hk
    obtain ⟨kv, hkv, rfl⟩ := hk
    have hmem := List.mem_filter.mp hkv
    have hk1 : kv.1 ≠ ".id" := by simpa using hmem.2
    have hg : getv x kv.1 = some kv.2 := getv_eq_some_of_mem hx
      (show (kv.1, kv.2) ∈ x from hmem.1)
    have := hdir kv.1 kv.2 hk1 hg
    rw [List.mem_toFinset, List.mem_map]
    exact ⟨(kv.1, kv.2), List.mem_filter.mpr
      ⟨mem_of_getv_eq_some this, by simp [hk1]⟩, rfl⟩
  have hkeyeq : ((coreFilter x).map Prod.fst).toFinset =
      ((coreFilter y).map Prod.fst).toFinset := by
    apply Finset.eq_of_subset_of_card_le hkeysub
    rw [List.toFinset_card_of_nodup (nodupKeys_coreFilter hx),
      List.toFinset_card_of_nodup (nodupKeys_coreFilter hy),
      List.length_map, List.length_map]
    omega
  intro k hk
  cases hgx : getv x k with
  | some v => exact (hdir k v hk hgx).symm
  | none =>
    cases hgy : getv y k with
    | none => rfl
    | some w =>
      have hky : k ∈ ((coreFilter y).map Prod.fst).toFinset := by
        rw [List.mem_toFinset, List.mem_map]
        exact ⟨(k, w), List.mem_filter.mpr
          ⟨mem_of_getv_eq_some hgy, by simp [hk]⟩, rfl⟩
      rw [← hkeyeq, List.mem_toFinset, List.mem_map] at hky
      obtain ⟨kv, hkv, hfst⟩ := hky
      have hmem := List.mem_filter.mp hkv
      have : getv x k = some kv.2 := by
        rw [← hfst]
        exact getv_eq_some_of_mem hx
          (show (kv.1, kv.2) ∈ x from hmem.1)
      rw [hgx] at this
      exact Option.noConfusion this

/-- A pair whose score equals both core sizes is core-equal. -/
theorem coreEq_of_max_score (a b : Item) (ha : NodupKeys a)
    (hb : NodupKeys b) (h1 : score_items a b = (coreFilter a).length)
    (h2 : (coreFilter a).length = (coreFilter b).length) : CoreEq a b := by
  rw [score_items_def] at h1
  by_cases hlen : a.length > b.length
  · rw [if_pos hlen] at h1
    exact (coreEq_of_score_count_full b a hb ha (by omega) h2.symm).symm
  · rw [if_neg hlen] at h1
    exact coreEq_of_score_count_full a b ha hb h1 h2

/-! ## The maximal-score scan -/

theorem mem_pairsOf {cur des : List Item} {cd : Item × Item} :
    cd ∈ pairsOf cur des ↔ cd.1 ∈ cur ∧ cd.2 ∈ des := by
  induction cur with
  | nil => simp [pairsOf]
  | cons c cs ih =>
    rw [pairsOf, List.mem_append, ih]
    constructor
    · rintro (h | ⟨h1, h2⟩)
      · rw [List.mem_map] at h
        obtain ⟨d, hd, rfl⟩ := h
        exact ⟨List.mem_cons_self _ _, hd⟩
      · exact ⟨List.mem_cons_of_mem _ h1, h2⟩
    · rintro ⟨h1, h2⟩
      rcases List.mem_cons.mp h1 with h | h
      · left
        rw [List.mem_map]
        exact ⟨cd.2, h2, by rw [← h]⟩
      · right
        exact ⟨h, h2⟩

theorem argmax_foldl_spec :
    ∀ (ps : List (Item × Item)) (acc : Nat × Option (Item × Item)),
    (ps.foldl argmax_step acc = acc ∨
      ∃ cd ∈ ps, ps.foldl argmax_step acc =
        (score_items cd.1 cd.2, some cd)) ∧
    acc.1 ≤ (ps.foldl argmax_step acc).1 ∧
    ∀ cd ∈ ps, score_items cd.1 cd.2 ≤ (ps.foldl argmax_step acc).1 := by
  intro ps
  induction ps with
  | nil => intro acc; exact ⟨Or.inl rfl, le_refl _, by simp⟩
  | cons cd ps ih =>
    intro acc
    rw [List.foldl_cons]
    obtain ⟨hres, hmono, hmax⟩ := ih (argmax_step acc cd)
    have hstep : argmax_step acc cd = acc ∨
        argmax_step acc cd = (score_items cd.1 cd.2, some cd) := by
      rw [argmax_step]
      by_cases h : score_items cd.1 cd.2 > acc.1
      · rw [if_pos h]; exact Or.inr rfl
      · rw [if_neg h]; exact Or.inl rfl
    have hstep1 : acc.1 ≤ (argmax_step acc cd).1 := by
      rw [argmax_step]
      by_cases h : score_items cd.1 cd.2 > acc.1
      · rw [if_pos h]; exact le_of_lt h
      · rw [if_neg h]
    have hstepcd : score_items cd.1 cd.2 ≤ (argmax_step acc cd).1 := by
      rw [argmax_step]
      by_cases h : score_items cd.1 cd.2 > acc.1
      · rw [if_pos h]
      · rw [if_neg h]; omega
    refine ⟨?_, le_trans hstep1 hmono, ?_⟩
    · rcases hres with h | ⟨cd', hcd', h⟩
      · rcases hstep with h2 | h2
        · exact Or.inl (h.trans h2)
        · exact Or.inr ⟨cd, List.mem_cons_self _ _, h.trans h2⟩
      · exact Or.inr ⟨cd', List.mem_cons_of_mem _ hcd', h⟩
    · intro cd' hcd'
      rcases List.mem_cons.mp hcd' with h | h
      · subst h
        exact le_trans hstepcd hmono
      · exact hmax cd' h

theorem argmax_pair_some {cur des : List Item} {c d : Item}
    (h : argmax_pair cur des = some (c, d)) :
    c ∈ cur ∧ d ∈ des ∧
    ∀ c' ∈ cur, ∀ d' ∈ des, score_items c' d' ≤ score_items c d := by
  obtain ⟨hres, -, hmax⟩ := argmax_foldl_spec (pairsOf cur des) (0, none)
  rw [argmax_pair] at h
  rcases hres with h2 | ⟨cd, hcd, h2⟩
  · rw [h2] at h
    exact Option.noConfusion h
  · rw [h2] at h
    have : cd = (c, d) := Option.some.inj h
    subst this
    have hm := mem_pairsOf.mp hcd
    refine ⟨hm.1, hm.2, ?_⟩
    intro c' hc' d' hd'
    have := hmax (c', d') (mem_pairsOf.mpr ⟨hc', hd'⟩)
    rw [h2] at this
    exact this

theorem argmax_pair_none {cur des : List Item}
    (h : argmax_pair cur des = none) :
    ∀ c ∈ cur, ∀ d ∈ des, score_items c d = 0 := by
  obtain ⟨hres, -, hmax⟩ := argmax_foldl_spec (pairsOf cur des) (0, none)
  rw [argmax_pair] at h
  rcases hres with h2 | ⟨cd, hcd, h2⟩
  · intro c hc d hd
    have := hmax (c, d) (mem_pairsOf.mpr ⟨hc, hd⟩)
    rw [h2] at this
    simp at this
    omega
  · rw [h2] at h
    exact Option.noConfusion h

theorem argmax_foldl_const :
    ∀ (ps : List (Item × Item)) (acc : Nat × Option (Item × Item)),
    (∀ cd ∈ ps, score_items cd.1 cd.2 ≤ acc.1) →
    ps.foldl argmax_step acc = acc := by
  intro ps
  induction ps with
  | nil => intro acc _; rfl
  | cons cd ps ih =>
    intro acc hall
    rw [List.foldl_cons, argmax_step,
      if_neg (by have := hall cd (List.mem_cons_self _ _); omega)]
    exact ih acc (fun cd' h => hall cd' (List.mem_cons_of_mem _ h))

theorem argmax_pair_none_of_zero {cur des : List Item}
    (h : ∀ c ∈ cur, ∀ d ∈ des, score_items c d = 0) :
    argmax_pair cur des = none := by
  rw [argmax_pair, argmax_foldl_const (pairsOf cur des) (0, none)
    (fun cd hcd => by
      have hm := mem_pairsOf.mp hcd
      rw [h cd.1 hm.1 cd.2 hm.2])]

/-! ## The pairing loop on core-equal lists -/

theorem coreFilter_eq_self_of_no_id {d : Item} (h : getv d ".id" = none) :
    coreFilter d = d := by
  rw [coreFilter, List.filter_eq_self]
  rintro ⟨k, v⟩ hkv
  by_cases hk : k = ".id"
  · subst hk
    exact absurd hkv (getv_eq_none_iff.mp h v)
  · simp [hk]

theorem remove_item_decomp {cur : List Item} {c : Item} (hc : c ∈ cur)
    (hnd : NodupKeys c) :
    ∃ e l1 l2, MapEq e c ∧ cur = l1 ++ e :: l2 ∧
      remove_item cur c = l1 ++ l2 := by
  obtain ⟨e, l1, l2, -, hpe, hdec, herase⟩ :=
    @List.exists_of_eraseP Item (fun e => dict_eq e c) cur c hc
      (dict_eq_refl hnd)
  exact ⟨e, l1, l2, dict_eq_to_MapEq hpe, hdec, herase⟩

theorem pairing_loop_equal_cores (path : String) :
    ∀ (fuel : Nat) (cur des im : List Item) (acts : List MtAction),
    (cur.map canon).Perm (des.map canon) →
    (∀ c ∈ cur, NodupKeys c) →
    (∀ d ∈ des, NodupKeys d ∧ getv d ".id" = none ∧ d ≠ []) →
    cur.length + des.length ≤ fuel →
    pairing_loop path fuel cur des im acts = .ok (acts, [], [], im) := by
  intro fuel
  induction fuel with
  | zero =>
    intro cur des im acts hperm hcur hdes hlen
    have hc : cur = [] := by
      cases cur with
      | nil => rfl
      | cons a t => rw [List.length_cons] at hlen; omega
    have hd : des = [] := by
      cases des with
      | nil => rfl
      | cons a t => rw [List.length_cons] at hlen; omega
    subst hc hd
    rw [pairing_loop, if_neg (by simp)]
  | succ fuel ih =>
    intro cur des im acts hperm hcur hdes hlen
    cases hcurnil : cur with
    | nil =>
      have hd : des = [] := by
        subst hcurnil
        rw [List.map_nil] at hperm
        have := hperm.nil_eq
        cases des with
        | nil => rfl
        | cons a t => rw [List.map_cons] at this; exact List.noConfusion this
      subst hcurnil hd
      rw [pairing_loop, if_neg (by simp)]
    | cons c0 cs =>
      subst hcurnil
      have hdesne : des ≠ [] := by
        intro hd
        subst hd
        rw [List.map_nil] at hperm
        have := hperm.symm.nil_eq
        rw [List.map_cons] at this
        exact List.noConfusion this
      -- a positive-score pair exists: the head of `cur` and its partner
      have hc0 := hcur c0 (List.mem_cons_self _ _)
      have hc0mem : canon c0 ∈ des.map canon :=
        hperm.mem_iff.mp (List.mem_map.mpr ⟨c0, List.mem_cons_self _ _, rfl⟩)
      obtain ⟨d0, hd0mem, hd0c⟩ := List.mem_map.mp hc0mem
      have hd0 := hdes d0 hd0mem
      have hcore0 : CoreEq c0 d0 :=
        (canon_eq_iff hc0 hd0.1).mp hd0c.symm
      have hd0size : 1 ≤ (coreFilter d0).length := by
        rw [coreFilter_eq_self_of_no_id hd0.2.1]
        cases hd' : d0 with
        | nil => exact absurd hd' hd0.2.2
        | cons a t => rw [List.length_cons]; omega
      have hscore0 : 1 ≤ score_items c0 d0 := by
        rw [score_items_of_coreEq c0 d0 hc0 hd0.1 hcore0,
          coreSize_eq_of_coreEq hc0 hd0.1 hcore0]
        exact hd0size
      cases hargmax : argmax_pair (c0 :: cs) des with
      | none =>
        have := argmax_pair_none hargmax c0 (List.mem_cons_self _ _) d0 hd0mem
        omega
      | some cd =>
        obtain ⟨cstar, dstar⟩ := cd
        obtain ⟨hcs_mem, hds_mem, hmax⟩ := argmax_pair_some hargmax
        have hcs_nd := hcur cstar hcs_mem
        have hds := hdes dstar hds_mem
        -- the chosen pair is core-equal
        have hcssize : (coreFilter cstar).length ≤ score_items cstar dstar := by
          have hmem : canon cstar ∈ des.map canon := hperm.mem_iff.mp
            (List.mem_map.mpr ⟨cstar, hcs_mem, rfl⟩)
          obtain ⟨d', hd'mem, hd'c⟩ := List.mem_map.mp hmem
          have hd' := hdes d' hd'mem
          have hcore' : CoreEq cstar d' :=
            (canon_eq_iff hcs_nd hd'.1).mp hd'c.symm
          have := hmax cstar hcs_mem d' hd'mem
          rw [score_items_of_coreEq cstar d' hcs_nd hd'.1 hcore'] at this
          exact this
        have hdssize : (coreFilter dstar).length ≤ score_items cstar dstar := by
          have hmem : canon dstar ∈ (c0 :: cs).map canon :=
            hperm.symm.mem_iff.mp (List.mem_map.mpr ⟨dstar, hds_mem, rfl⟩)
          obtain ⟨c', hc'mem, hc'c⟩ := List.mem_map.mp hmem
          have hc'nd := hcur c' hc'mem
          have hcore' : CoreEq c' dstar :=
            (canon_eq_iff hc'nd hds.1).mp hc'c
          have := hmax c' hc'mem dstar hds_mem
          rw [score_items_of_coreEq c' dstar hc'nd hds.1 hcore',
            coreSize_eq_of_coreEq hc'nd hds.1 hcore'] at this
          exact this
        have hle := score_items_le cstar dstar hcs_nd hds.1
        have hcore_star : CoreEq cstar dstar :=
          coreEq_of_max_score cstar dstar hcs_nd hds.1 (by omega) (by omega)
        -- no PATCH is needed for a core-equal pair with no `.id` key
        have hfind : dstar.find? (fun kv => patch_needed cstar kv) = none := by
          rw [List.find?_eq_none]
          rintro ⟨k, v⟩ hkv
          have hk : k ≠ ".id" := by
            intro hk
            subst hk
            exact getv_eq_none_iff.mp hds.2.1 v hkv
          have hgd : getv dstar k = some v := getv_eq_some_of_mem hds.1 hkv
          have hgc : getv cstar k = some v := by
            rw [hcore_star k hk]
            exact hgd
          rw [patch_needed, hgc]
          simp
        have hpp : pair_patch path cstar dstar im = .ok ([], im) := by
          rw [pair_patch, hfind]
        -- remove the pair on both sides; the core multisets stay equal
        obtain ⟨e, l1, l2, he_eq, hdecomp, hrem⟩ :=
          remove_item_decomp hcs_mem hcs_nd
        obtain ⟨f, m1, m2, hf_eq, hdecompD, hremD⟩ :=
          remove_item_decomp hds_mem hds.1
        have he_nd : NodupKeys e := by
          rw [hdecomp] at hcur
          exact hcur e (by simp)
        have hf_nd : NodupKeys f := by
          rw [hdecompD] at hdes
          exact (hdes f (by simp)).1
        have hcanon_e : canon e = canon cstar :=
          (canon_eq_iff he_nd hcs_nd).mpr (coreEq_of_mapEq he_eq)
        have hcanon_f : canon f = canon dstar :=
          (canon_eq_iff hf_nd hds.1).mpr (coreEq_of_mapEq hf_eq)
        have hcanon_fe : canon f = canon e := by
          rw [hcanon_f, hcanon_e,
            (canon_eq_iff hcs_nd hds.1).mpr hcore_star]
        have hperm' : ((l1 ++ l2).map canon).Perm ((m1 ++ m2).map canon) := by
          have hL : ((c0 :: cs).map canon).Perm
              (canon e :: (l1 ++ l2).map canon) := by
            rw [hdecomp, List.map_append, List.map_cons, List.map_append]
            exact List.perm_middle
          have hR : (des.map canon).Perm
              (canon f :: (m1 ++ m2).map canon) := by
            rw [hdecompD, List.map_append, List.map_cons, List.map_append]
            exact List.perm_middle
          have := (hL.symm.trans hperm).trans hR
          rw [hcanon_fe] at this
          exact this.cons_inv
        have hcur' : ∀ c ∈ l1 ++ l2, NodupKeys c := by
          intro x hx
          rw [hdecomp] at hcur
          rcases List.mem_append.mp hx with h | h
          · exact hcur x (by simp [h])
          · exact hcur x (by simp [h])
        have hdes' : ∀ d ∈ m1 ++ m2,
            NodupKeys d ∧ getv d ".id" = none ∧ d ≠ [] := by
          intro x hx
          rw [hdecompD] at hdes
          rcases List.mem_append.mp hx with h | h
          · exact hdes x (by simp [h])
          · exact hdes x (by simp [h])
        have hlen' : (l1 ++ l2).length + (m1 ++ m2).length ≤ fuel := by
          have h1 : (c0 :: cs).length = (l1 ++ l2).length + 1 := by
            rw [hdecomp]
            simp
            omega
          have h2 : des.length = (m1 ++ m2).length + 1 := by
            rw [hdecompD]
            simp
            omega
          omega
        rw [pairing_loop]
        rw [if_pos ⟨by simp, by cases des with
          | nil => exact absurd rfl hdesne
          | cons a t => simp⟩]
        simp only [hargmax, hpp]
        rw [hrem, hremD, List.append_nil]
        exact ih (l1 ++ l2) (m1 ++ m2) im acts hperm' hcur' hdes' hlen'

/-! ## Phase 2 skips core-equal positions -/

theorem coreFilter_idem (a : Item) : coreFilter (coreFilter a) = coreFilter a := by
  rw [coreFilter, coreFilter, List.filter_eq_self]
  intro kv hkv
  exact (List.mem_filter.mp hkv).2

theorem test_equality_of_coreEq {a b : Item} (ha : NodupKeys a)
    (hb : NodupKeys b) (h : CoreEq a b) : test_equality a b = true := by
  have hsize := coreSize_eq_of_coreEq ha hb h
  have hcore' : CoreEq (coreFilter a) (coreFilter b) := by
    intro k hk
    rw [getv_coreFilter a k hk, getv_coreFilter b k hk]
    exact h k hk
  have hscore := score_items_of_coreEq (coreFilter a) (coreFilter b)
    (nodupKeys_coreFilter ha) (nodupKeys_coreFilter hb) hcore'
  rw [coreFilter_idem] at hscore
  rw [test_equality]
  simp only [Bool.and_eq_true, beq_iff_eq, Nat.cast_id]
  exact ⟨by rw [← coreFilter, ← coreFilter, hsize], by rw [← coreFilter]; exact hscore⟩

theorem reorder_skip (path : String) :
    ∀ (des : List Item) (i : Nat) (im : List Item) (acts : List MtAction),
    (∀ j (hj : j < des.length), ∃ it, im.get? (i + j) = some it ∧
      test_equality des[j] it = true) →
    reorder_go path i des im acts = .ok (acts, im) := by
  intro des
  induction des with
  | nil => intro i im acts _; rfl
  | cons d rest ih =>
    intro i im acts h
    obtain ⟨it, hget, heq⟩ := h 0 (by simp)
    rw [Nat.add_zero] at hget
    rw [reorder_go]
    simp only [hget]
    rw [if_pos (show test_equality d it = true from heq)]
    apply ih (i + 1) im acts
    intro j hj
    obtain ⟨it', hget', heq'⟩ := h (j + 1) (by simpa using hj)
    refine ⟨it', ?_, by simpa using heq'⟩
    rw [show i + 1 + j = i + (j + 1) from by omega]
    exact hget'

/-! ## Claim C1: reconciling equal lists emits no actions -/

/-- **C1 (counterexample to the claim as stated).** The two lists below
are equal modulo `.id` (the sole items agree on every key other than
`.id`), yet the reconciler emits a PATCH: the desired item carries a
`.id` key of its own, and the PATCH condition compares `.id` like any
other key. -/
theorem claim_C1_counterexample :
    analyze_list_actions [] "/p" [[(".id", "1"), ("k", "a")]]
        [[(".id", "2"), ("k", "a")]] =
      .ok [{ kind := .PATCH, path := "/p" ++ "/" ++ "1",
             set_dict := [(".id", "2"), ("k", "a")],
             current_dict := [(".id", "1"), ("k", "a")] }] := rfl

theorem map_canon_eq_of_forall₂ :
    ∀ {cur des : List Item}, List.Forall₂ CoreEq cur des →
    (∀ c ∈ cur, NodupKeys c) → (∀ d ∈ des, NodupKeys d) →
    cur.map canon = des.map canon := by
  intro cur des h
  induction h with
  | nil => intro _ _; rfl
  | @cons c d cs ds hcd htail ih =>
    intro hc hd
    rw [List.map_cons, List.map_cons,
      (canon_eq_iff (hc c (List.mem_cons_self _ _))
        (hd d (List.mem_cons_self _ _))).mpr hcd,
      ih (fun x hx => hc x (List.mem_cons_of_mem _ hx))
        (fun x hx => hd x (List.mem_cons_of_mem _ hx))]

/-- **C1 (amended).** For every collection path and every pair of current
and desired item lists that are equal modulo `.id` — where, as in the data
model, the desired items do not carry a `.id` key and every item has at
least one key — the list reconciler (phase 1 followed by phase 2) emits
zero actions. -/
theorem claim_C1_amended_no_actions (nm : List String) (path : String)
    (cur des : List Item) (hpair : List.Forall₂ CoreEq cur des)
    (hcur : ∀ c ∈ cur, NodupKeys c)
    (hdes : ∀ d ∈ des, NodupKeys d ∧ getv d ".id" = none ∧ d ≠ []) :
    analyze_list_actions nm path cur des = .ok [] := by
  have hmap : cur.map canon = des.map canon :=
    map_canon_eq_of_forall₂ hpair hcur (fun d hd => (hdes d hd).1)
  have hloop := pairing_loop_equal_cores path (cur.length + des.length)
    cur des cur [] (hmap ▸ List.Perm.refl _) hcur hdes (le_refl _)
  have haddrem : analyze_list_add_remove path cur des cur = .ok ([], cur) := by
    rw [analyze_list_add_remove, hloop]
    rfl
  have hlen := hpair.length_eq
  have hreorder : analyze_list_reorder nm path cur des = .ok ([], cur) := by
    rw [analyze_list_reorder]
    by_cases hnm : path ∈ nm
    · rw [if_pos hnm]
    · rw [if_neg hnm]
      apply reorder_skip path des 0 cur []
      intro j hj
      have hjc : j < cur.length := by omega
      have hcd : CoreEq cur[j] des[j] :=
        (List.forall₂_iff_get.mp hpair).2 j hjc hj
      refine ⟨cur[j], ?_, ?_⟩
      · rw [Nat.zero_add, List.get?_eq_getElem?, List.getElem?_eq_getElem hjc]
      · exact test_equality_of_coreEq (hdes des[j] (des.getElem_mem hj)).1
          (hcur cur[j] (cur.getElem_mem hjc)) hcd.symm
  rw [analyze_list_actions]
  simp only [haddrem, hreorder]
  rfl

/-- Witness for C1 (amended): one current item paired with an equal
desired item (no `.id` on the desired side) yields no actions. -/
theorem claim_C1_amended_no_actions_witness :
    analyze_list_actions ["/other"] "/p" [[(".id", "1"), ("k", "a")]]
      [[("k", "a")]] = .ok [] := by
  apply claim_C1_amended_no_actions ["/other"] "/p"
    [[(".id", "1"), ("k", "a")]] [[("k", "a")]]
  · refine List.Forall₂.cons ?_ List.Forall₂.nil
    intro k hk
    rw [getv_cons, if_neg (fun h => hk h.symm), getv_cons]
  · intro c hc
    rw [List.mem_singleton] at hc
    subst hc
    decide
  · intro d hd
    rw [List.mem_singleton] at hd
    subst hd
    exact ⟨by decide, by decide, by decide⟩

/-! ## Phase 1 on states with parseable ids -/

theorem mt_int_s_nonneg {v : String} {n : Int} (h : mt_int (.s v) = some n) :
    0 ≤ n := by
  rcases hd : v.data with - | ⟨c, rest⟩
  · rw [mt_int] at h
    simp only [hd] at h
    exact Option.noConfusion h
  · rw [mt_int_s_of_data hd] at h
    by_cases hc : c = '*'
    · rw [if_pos hc] at h
      obtain ⟨k, hx, hk⟩ := Option.map_eq_some'.mp h
      exact hk ▸ Int.ofNat_nonneg k
    · rw [if_neg hc] at h
      obtain ⟨k, hx, hk⟩ := Option.map_eq_some'.mp h
      exact hk ▸ Int.ofNat_nonneg k

theorem ids_ok_cons {it : Item} {rest : List Item}
    (h : ids_ok (it :: rest) = true) :
    (∃ v n, getv it ".id" = some v ∧ mt_int (.s v) = some n) ∧
      ids_ok rest = true := by
  rw [ids_ok, List.all_cons, Bool.and_eq_true] at h
  obtain ⟨h1, h2⟩ := h
  refine ⟨?_, h2⟩
  rcases hgv : getv it ".id" with - | v
  · rw [hgv] at h1
    exact absurd h1 (by decide)
  · rw [hgv] at h1
    obtain ⟨n, hn⟩ := Option.isSome_iff_exists.mp h1
    exact ⟨v, n, rfl, hn⟩

theorem ids_ok_append {s t : List Item} (hs : ids_ok s = true)
    (ht : ids_ok t = true) : ids_ok (s ++ t) = true := by
  rw [ids_ok] at hs ht ⊢
  rw [List.all_append, hs, ht]
  rfl

theorem ids_ok_of_sublist {s t : List Item} (hsub : s.Sublist t)
    (ht : ids_ok t = true) : ids_ok s = true := by
  rw [ids_ok, List.all_eq_true] at ht ⊢
  exact fun x hx => ht x (hsub.subset hx)

theorem ids_ok_mem {s : List Item} {c : Item} (h : ids_ok s = true)
    (hc : c ∈ s) : (getv c ".id").isSome = true := by
  rw [ids_ok, List.all_eq_true] at h
  have h1 := h c hc
  rcases hgv : getv c ".id" with - | v
  · rw [hgv] at h1
    exact absurd h1 (by decide)
  · rfl

theorem max_id_go_ok : ∀ (s : List Item) (acc : Int), ids_ok s = true →
    ∃ m, Imagined.max_id_go s acc = .ok m ∧ acc ≤ m := by
  intro s
  induction s with
  | nil => intro acc _; exact ⟨acc, rfl, le_refl acc⟩
  | cons it rest ih =>
    intro acc h
    obtain ⟨⟨v, n, hv, hn⟩, hrest⟩ := ids_ok_cons h
    obtain ⟨m, hm, hle⟩ := ih (if acc < n then n else acc) hrest
    refine ⟨m, ?_, ?_⟩
    · rw [Imagined.max_id_go]
      simp only [idOf_ok hv, hn]
      exact hm
    · by_cases hacc : acc < n
      · rw [if_pos hacc] at hle
        omega
      · rw [if_neg hacc] at hle
        omega

theorem max_id_ok {s : List Item} (h : ids_ok s = true) :
    ∃ m, Imagined.max_id s = .ok m ∧ 1 ≤ m := by
  obtain ⟨m, hm, h1⟩ := max_id_go_ok s 1 h
  exact ⟨m, by rw [Imagined.max_id]; exact hm, h1⟩

theorem append_ok {s : List Item} (d : Item) (h : ids_ok s = true) :
    ∃ s', Imagined.append s d = .ok s' ∧ ids_ok s' = true := by
  obtain ⟨m, hm, h1⟩ := max_id_ok h
  refine ⟨s ++ [dictInsert d ".id" (mt_str (.i (m + 1)))], ?_, ?_⟩
  · rw [Imagined.append]
    simp only [hm]
  · apply ids_ok_append h
    rw [ids_ok]
    simp only [List.all_cons, List.all_nil, Bool.and_true,
      getv_dictInsert_self]
    rw [mt_str_nonneg (show (0 : Int) ≤ m + 1 from by omega), mt_int_mtStrN]
    rfl

theorem puts_fold_ok (path : String) :
    ∀ (ds : List Item) (acts : List MtAction) (im : List Item),
    ids_ok im = true →
    ∃ im', puts_fold path ds (acts, im) =
      .ok (acts ++ ds.map (fun d =>
        { kind := .PUT, path := path, set_dict := d,
          current_dict := [] }), im') ∧ ids_ok im' = true := by
  intro ds
  induction ds with
  | nil =>
    intro acts im him
    exact ⟨im, by simp [puts_fold], him⟩
  | cons d rest ih =>
    intro acts im him
    obtain ⟨im₁, happ, him₁⟩ := append_ok d him
    obtain ⟨im', hrec, him'⟩ := ih
      (acts ++ [{ kind := .PUT, path := path, set_dict := d,
                  current_dict := [] }]) im₁ him₁
    refine ⟨im', ?_, him'⟩
    rw [puts_fold]
    simp only [happ]
    rw [hrec, List.map_cons, List.append_assoc, List.singleton_append]

theorem find_id_idx_ok :
    ∀ (s : List Item) (target : String) (k : Nat), ids_ok s = true →
    ∃ r, Imagined.find_id_idx s target k = .ok r := by
  intro s
  induction s with
  | nil => intro t k _; exact ⟨none, rfl⟩
  | cons it rest ih =>
    intro t k h
    obtain ⟨⟨v, n, hv, -⟩, hrest⟩ := ids_ok_cons h
    obtain ⟨r, hr⟩ := ih t (k + 1) hrest
    by_cases hvt : v = t
    · refine ⟨some k, ?_⟩
      rw [Imagined.find_id_idx]
      simp only [idOf_ok hv]
      rw [if_pos hvt]
    · refine ⟨r, ?_⟩
      rw [Imagined.find_id_idx]
      simp only [idOf_ok hv]
      rw [if_neg hvt]
      exact hr

theorem mab_ok : ∀ (s : List Item) (b : Int), 1 ≤ b → ids_ok s = true →
    ∃ s', Imagined.move_all_between s (some (.i b)) none (-1) = .ok s' ∧
      ids_ok s' = true := by
  intro s
  induction s with
  | nil => intro b _ _; exact ⟨[], rfl, rfl⟩
  | cons it rest ih =>
    intro b hb h
    obtain ⟨⟨v, n, hv, hn⟩, hrest⟩ := ids_ok_cons h
    obtain ⟨rest', hrest', hok'⟩ := ih b hb hrest
    have hn0 : 0 ≤ n := mt_int_s_nonneg hn
    by_cases hbn : b ≤ n
    · refine ⟨dictInsert it ".id" (mt_str (.i (n + -1))) :: rest', ?_, ?_⟩
      · have hmab : mab_item it (some (.i b)) none (-1) =
            .ok (dictInsert it ".id" (mt_str (.i (n + -1)))) := by
          rw [mab_item]
          simp only [idOf_ok hv, hn, boundLo, mt_int_i]
          rw [if_pos (decide_eq_true hbn)]
          rfl
        rw [Imagined.move_all_between]
        simp only [hmab, hrest']
      · rw [ids_ok, List.all_cons, Bool.and_eq_true]
        constructor
        · simp only [getv_dictInsert_self]
          rw [mt_str_nonneg (show (0 : Int) ≤ n + -1 from by omega),
            mt_int_mtStrN]
          rfl
        · exact hok'
    · refine ⟨it :: rest', ?_, ?_⟩
      · have hmab : mab_item it (some (.i b)) none (-1) = .ok it := by
          rw [mab_item]
          simp only [idOf_ok hv, hn, boundLo, mt_int_i]
          rw [if_neg (fun hcontra => hbn (of_decide_eq_true hcontra))]
        rw [Imagined.move_all_between]
        simp only [hmab, hrest']
      · rw [ids_ok, List.all_cons, Bool.and_eq_true]
        refine ⟨?_, hok'⟩
        simp only [hv]
        rw [hn]
        rfl

theorem delete_ok {s : List Item} (id : MtV) (h : ids_ok s = true) :
    ∃ s', Imagined.delete s id = .ok s' ∧ ids_ok s' = true := by
  obtain ⟨r, hr⟩ := find_id_idx_ok s (mt_str id) 0 h
  rcases r with - | i
  · refine ⟨s, ?_, h⟩
    rw [Imagined.delete]
    simp only [hr]
  · have h' := ids_ok_of_sublist (List.eraseIdx_sublist s i) h
    obtain ⟨s', hs', hok'⟩ := mab_ok (s.eraseIdx i) ((i : Int) + 1)
      (by omega) h'
    refine ⟨s', ?_, hok'⟩
    rw [Imagined.delete]
    simp only [hr]
    exact hs'

theorem dels_fold_ok (path : String) :
    ∀ (cs : List Item) (acts : List MtAction) (im : List Item),
    ids_ok im = true → (∀ c ∈ cs, (getv c ".id").isSome = true) →
    ∃ im', dels_fold path cs (acts, im) =
      .ok (acts ++ cs.map (fun c =>
        { kind := .DELETE, path := path ++ "/" ++ ((getv c ".id").getD ""),
          set_dict := [], current_dict := c }), im') ∧
      ids_ok im' = true := by
  intro cs
  induction cs with
  | nil =>
    intro acts im him _
    exact ⟨im, by simp [dels_fold], him⟩
  | cons c rest ih =>
    intro acts im him hall
    obtain ⟨v, hv⟩ := Option.isSome_iff_exists.mp
      (hall c (List.mem_cons_self _ _))
    obtain ⟨im₁, hdel, him₁⟩ := delete_ok (.s v) him
    obtain ⟨im', hrec, him'⟩ := ih
      (acts ++ [{ kind := .DELETE, path := path ++ "/" ++ v,
                  set_dict := [], current_dict := c }]) im₁ him₁
      (fun x hx => hall x (List.mem_cons_of_mem _ hx))
    refine ⟨im', ?_, him'⟩
    rw [dels_fold]
    simp only [idOf_ok hv, hdel]
    rw [hrec]
    simp only [List.map_cons, hv, Option.getD_some, List.append_assoc,
      List.singleton_append]

theorem pairing_loop_fatal (path : String) (fuel : Nat)
    (cur des im : List Item) (acts : List MtAction)
    (hc : 0 < cur.length) (hd : 0 < des.length)
    (h : ∀ c ∈ cur, ∀ d ∈ des, score_items c d = 0) :
    pairing_loop path (fuel + 1) cur des im acts =
      .error "Exception: null pair despite non-empty queues" := by
  rw [pairing_loop, if_pos ⟨hc, hd⟩]
  simp only [argmax_pair_none_of_zero h]

theorem pairing_loop_exit (path : String) (fuel : Nat)
    (cur des im : List Item) (acts : List MtAction)
    (h : ¬(0 < cur.length ∧ 0 < des.length)) :
    pairing_loop path fuel cur des im acts = .ok (acts, cur, des, im) := by
  cases fuel with
  | zero => rw [pairing_loop, if_neg h]
  | succ f => rw [pairing_loop, if_neg h]

/-! ## Claim C2: the fatal null-pair branch of phase 1 -/

/-- **C2 (counterexample to the claim as stated).** With both queues
non-empty but every pair scoring zero (the current item's only key is
`.id`, which scoring skips, and the desired item is empty), the scan's
strict `> 0` start selects no pair at all and phase 1 dies on the
"null pair despite non-empty queues" branch — it is reachable. -/
theorem claim_C2_counterexample :
    analyze_list_add_remove "/p" [[(".id", "1")]] [[]] [[(".id", "1")]] =
      .error "Exception: null pair despite non-empty queues" := rfl

/-- **C2 (amended).** The corrected phase-1 behaviour: (i) with both
queues non-empty and every pair scoring zero, phase 1 fails on the fatal
null-pair branch (so that branch is reachable, contrary to the claim);
(ii) whenever the scan does return a pair, that pair is drawn from the
two pending lists and its score is maximal (so the greedy step of the
claim is right); (iii) with no current items left, phase 1 emits exactly
one PUT per desired item, provided the imagined state's ids parse;
(iv) with no desired items left, phase 1 emits exactly one DELETE per
current item, provided the current items' ids parse. -/
theorem claim_C2_amended (path : String) :
    (∀ (cur des im : List Item), cur ≠ [] → des ≠ [] →
      (∀ c ∈ cur, ∀ d ∈ des, score_items c d = 0) →
      analyze_list_add_remove path cur des im =
        .error "Exception: null pair despite non-empty queues") ∧
    (∀ (cur des : List Item) (c d : Item),
      argmax_pair cur des = some (c, d) →
      c ∈ cur ∧ d ∈ des ∧
        ∀ c' ∈ cur, ∀ d' ∈ des, score_items c' d' ≤ score_items c d) ∧
    (∀ (des im : List Item), ids_ok im = true →
      ∃ im', analyze_list_add_remove path [] des im =
        .ok (des.map (fun d =>
          { kind := .PUT, path := path, set_dict := d,
            current_dict := [] }), im')) ∧
    (∀ (cur : List Item), ids_ok cur = true →
      ∃ im', analyze_list_add_remove path cur [] cur =
        .ok (cur.map (fun c =>
          { kind := .DELETE,
            path := path ++ "/" ++ ((getv c ".id").getD ""),
            set_dict := [], current_dict := c }), im')) := by
  refine ⟨?_, ?_, ?_, ?_⟩
  · intro cur des im hc hd hzero
    have hc' : 0 < cur.length := List.length_pos.mpr hc
    have hd' : 0 < des.length := List.length_pos.mpr hd
    rw [analyze_list_add_remove]
    have hfuel : cur.length + des.length =
        (cur.length + des.length - 1) + 1 := by omega
    rw [hfuel,
      pairing_loop_fatal path (cur.length + des.length - 1) cur des im []
        hc' hd' hzero]
  · intro cur des c d h
    exact argmax_pair_some h
  · intro des im him
    obtain ⟨im', hput, him'⟩ := puts_fold_ok path des [] im him
    rw [List.nil_append] at hput
    refine ⟨im', ?_⟩
    rw [analyze_list_add_remove]
    have hloop : pairing_loop path (([] : List Item).length + des.length)
        [] des im [] = .ok ([], [], des, im) :=
      pairing_loop_exit path _ [] des im [] (by simp)
    simp only [hloop, hput]
    rfl
  · intro cur hcur
    obtain ⟨im', hdels, him'⟩ := dels_fold_ok path cur [] cur hcur
      (fun c hc => ids_ok_mem hcur hc)
    rw [List.nil_append] at hdels
    refine ⟨im', ?_⟩
    rw [analyze_list_add_remove]
    have hloop : pairing_loop path (cur.length + ([] : List Item).length)
        cur [] cur [] = .ok ([], cur, [], cur) :=
      pairing_loop_exit path _ cur [] cur [] (by simp)
    simp only [hloop]
    exact hdels

/-- Witness for C2 (amended): conjunct (i) at the counterexample input,
conjunct (ii) at a positively scoring singleton pair, conjuncts (iii)
and (iv) at singleton desired resp. current lists. -/
theorem claim_C2_amended_witness :
    (analyze_list_add_remove "/p" [[(".id", "1")]] [[]] [[(".id", "1")]] =
      .error "Exception: null pair despite non-empty queues") ∧
    ([("k", "a")] ∈ [[("k", "a")]] ∧ [("k", "a")] ∈ [[("k", "a")]] ∧
      ∀ c' ∈ [[("k", "a")]], ∀ d' ∈ [[("k", "a")]],
        score_items c' d' ≤ score_items [("k", "a")] [("k", "a")]) ∧
    (∃ im', analyze_list_add_remove "/p" [] [[("k", "a")]] [] =
      .ok (([[("k", "a")]] : List Item).map (fun d =>
        { kind := .PUT, path := "/p", set_dict := d,
          current_dict := [] }), im')) ∧
    (∃ im', analyze_list_add_remove "/p" [[(".id", "1")]] []
        [[(".id", "1")]] =
      .ok (([[(".id", "1")]] : List Item).map (fun c =>
        { kind := .DELETE,
          path := "/p" ++ "/" ++ ((getv c ".id").getD ""),
          set_dict := [], current_dict := c }), im')) :=
  ⟨(claim_C2_amended "/p").1 [[(".id", "1")]] [[]] [[(".id", "1")]]
      (by decide) (by decide) (by decide),
    (claim_C2_amended "/p").2.1 [[("k", "a")]] [[("k", "a")]]
      [("k", "a")] [("k", "a")] rfl,
    (claim_C2_amended "/p").2.2.1 [[("k", "a")]] [] (by decide),
    (claim_C2_amended "/p").2.2.2 [[(".id", "1")]] (by decide)⟩
